import Mathlib

/-!
# Verification of the senv-db-sync incremental ETL engine

Shallow embedding of the load-bearing parts of the senv-db-sync repository:
date normalization (`utils/dates.py`, duplicated in the per-controller
transform components and `transforms_all_savio.py`), per-type deduplication,
the HTTP retry loop and the paginated fetch loops, the batched upsert sink,
and the watermark/range resolution of the controllers.

Python machinery is modelled as follows: dicts used as ordered key → value
maps become association lists with the insertion-order semantics of CPython
dicts; functions that can raise return `Except`/`Option`; the network is an
oracle function from request parameters to responses; clock reads
(`datetime.now()`) are injected parameters.
-/

namespace SenvDbSync

/-! ## Date handling (`utils/dates.py`, `transforms_all_savio.py`)

`parse_oracle_date` calls Python's `datetime.fromisoformat` on the input with
every `'Z'` replaced by `"+00:00"`, then formats the result with
`strftime('%Y-%m-%d %H:%M:%S')`.  `fromisoformat` is modelled here on the
grammar relevant to this repository: `YYYY-MM-DD`, optionally followed by a
one-character separator and `HH:MM[:SS[.f{1..6}]]`, optionally followed by a
UTC offset `±HH:MM[:SS]`; real calendar dates only (leap years included). -/

/-- A parsed calendar timestamp (what `datetime.fromisoformat` yields, with
the sub-second and timezone parts dropped because `strftime('%Y-%m-%d
%H:%M:%S')` does not print them). -/
structure PyDateTime where
  year : Nat
  month : Nat
  day : Nat
  hour : Nat
  minute : Nat
  second : Nat
deriving Repr, DecidableEq

/-- Value of a decimal digit character, `none` for non-digits. -/
def digitVal (c : Char) : Option Nat :=
  if c.isDigit then some (c.toNat - 48) else none

/-- Gregorian leap-year rule (as in Python's `calendar.isleap`). -/
def leapYear (y : Nat) : Bool :=
  (y % 4 == 0 && y % 100 != 0) || (y % 400 == 0)

/-- Days in a month, leap years included. -/
def daysInMonth (y m : Nat) : Nat :=
  if m = 2 then (if leapYear y then 29 else 28)
  else if m = 4 ∨ m = 6 ∨ m = 9 ∨ m = 11 then 30
  else 31

/-- Date-component validation done by `datetime.fromisoformat`. -/
def validDate (y mo d : Nat) : Bool :=
  decide (1 ≤ y) && decide (y ≤ 9999) && decide (1 ≤ mo) && decide (mo ≤ 12)
    && decide (1 ≤ d) && decide (d ≤ daysInMonth y mo)

/-- Time-component validation done by `datetime.fromisoformat`. -/
def validTime (h mi s : Nat) : Bool :=
  decide (h ≤ 23) && decide (mi ≤ 59) && decide (s ≤ 59)

/-- Two-digit number. -/
def num2 (a b : Char) : Option Nat := do
  let x ← digitVal a
  let y ← digitVal b
  pure (10 * x + y)

/-- Four-digit number. -/
def num4 (a b c d : Char) : Option Nat := do
  let x ← num2 a b
  let y ← num2 c d
  pure (100 * x + y)

/-- Shape check for the optional trailing UTC offset `±HH:MM[:SS]`. -/
def offsetOk : List Char → Bool
  | [] => true
  | sign :: h1 :: h2 :: ':' :: m1 :: m2 :: rest =>
      (sign == '+' || sign == '-') && (num2 h1 h2).isSome && (num2 m1 m2).isSome &&
        (match rest with
          | [] => true
          | ':' :: s1 :: s2 :: [] => (num2 s1 s2).isSome
          | _ => false)
  | _ => false

/-- Shape check for an optional fractional-second part followed by an
optional UTC offset. -/
def fracThenOffsetOk : List Char → Bool
  | '.' :: rest =>
      let ds := rest.takeWhile (fun c => c.isDigit)
      decide (1 ≤ ds.length) && decide (ds.length ≤ 6)
        && offsetOk (rest.drop ds.length)
  | l => offsetOk l

/-- Parse the time-of-day part `HH:MM[:SS[.frac]][offset]`. -/
def parseTimeChars : List Char → Option (Nat × Nat × Nat)
  | h1 :: h2 :: ':' :: m1 :: m2 :: rest => do
      let h ← num2 h1 h2
      let mi ← num2 m1 m2
      match rest with
      | [] => pure (h, mi, 0)
      | ':' :: s1 :: s2 :: rest2 => do
          let s ← num2 s1 s2
          if fracThenOffsetOk rest2 then pure (h, mi, s) else none
      | l => if offsetOk l then pure (h, mi, 0) else none
  | _ => none

/-- Parse `YYYY-MM-DD[<sep>HH:MM[:SS[.frac]][offset]]` — the model of
`datetime.fromisoformat` on this repository's inputs. -/
def parseIsoChars : List Char → Option PyDateTime
  | y1 :: y2 :: y3 :: y4 :: '-' :: mo1 :: mo2 :: '-' :: d1 :: d2 :: rest => do
      let y ← num4 y1 y2 y3 y4
      let mo ← num2 mo1 mo2
      let d ← num2 d1 d2
      let t ← match rest with
        | [] => pure (0, 0, 0)
        | _sep :: timeChars => parseTimeChars timeChars
      if validDate y mo d && validTime t.1 t.2.1 t.2.2 then
        pure ⟨y, mo, d, t.1, t.2.1, t.2.2⟩
      else none
  | _ => none

/-- Model of `datetime.fromisoformat`. -/
def fromisoformat (s : String) : Option PyDateTime := parseIsoChars s.data

/-- Model of `date_str.replace('Z', '+00:00')` (single-character pattern, so
plain character-by-character substitution). -/
def replaceZChars : List Char → List Char
  | [] => []
  | 'Z' :: rest => '+' :: '0' :: '0' :: ':' :: '0' :: '0' :: replaceZChars rest
  | c :: rest => c :: replaceZChars rest

/-- Model of the Python string method `replace('Z', '+00:00')`. -/
def pyReplaceZ (s : String) : String := ⟨replaceZChars s.data⟩

/-- Zero-padded two-digit field (`strftime` `%M`-style). -/
def pad2 (n : Nat) : String := if n < 10 then "0" ++ toString n else toString n

/-- Zero-padded four-digit field (`strftime` `%Y`-style). -/
def pad4 (n : Nat) : String :=
  if n < 10 then "000" ++ toString n
  else if n < 100 then "00" ++ toString n
  else if n < 1000 then "0" ++ toString n
  else toString n

/-- `dt.strftime('%Y-%m-%d %H:%M:%S')`. -/
def strftimePg (dt : PyDateTime) : String :=
  pad4 dt.year ++ "-" ++ pad2 dt.month ++ "-" ++ pad2 dt.day ++ " "
    ++ pad2 dt.hour ++ ":" ++ pad2 dt.minute ++ ":" ++ pad2 dt.second

/-- `parse_oracle_date` from `utils/dates.py` (the identical copies live in
`transforms_all_savio.py` and each controller's `transform_data.py`):
`None`/empty input gives `None`; otherwise replace `'Z'`, parse with
`fromisoformat`, and format; a parse failure (the `except` arm) gives
`None`. -/
def parse_oracle_date (dateStr : Option String) : Option String :=
  match dateStr with
  | none => none
  | some s =>
    if s = "" then none
    else
      match fromisoformat (pyReplaceZ s) with
      | some dt => some (strftimePg dt)
      | none => none

/-! ## Python dict model and the two `deduplicate_by_id` variants

Both deduplicators build a Python dict keyed by each record's `id` field and
return `list(unique.values())`.  A CPython dict is insertion-ordered:
assigning to a fresh key appends it, assigning to an existing key replaces
its value in place, and `setdefault` keeps the existing value.  That is
modelled by an association list. -/

/-- Association-list model of a CPython (insertion-ordered) dict. -/
abbrev PyDict (α : Type) := List (String × α)

/-- The dict's key sequence, in insertion order. -/
def keysOf (m : PyDict α) : List String := m.map (fun p => p.1)

/-- Python `d[k] = v`: replace the value in place at the key's existing
position, or append a fresh key at the end. -/
def dictAssign (m : PyDict α) (k : String) (v : α) : PyDict α :=
  match m with
  | [] => [(k, v)]
  | (k2, w) :: t => if k2 = k then (k, v) :: t else (k2, w) :: dictAssign t k v

/-- Python `d.setdefault(k, v)`: keep the stored value if the key exists,
else append the fresh key at the end. -/
def dictSetdefault (m : PyDict α) (k : String) (v : α) : PyDict α :=
  match m with
  | [] => [(k, v)]
  | (k2, w) :: t => if k2 = k then (k2, w) :: t else (k2, w) :: dictSetdefault t k v

/-- Python `list(d.values())`. -/
def dictValues (m : PyDict α) : List α := m.map (fun p => p.2)

/-- Python truthiness of an `id` value read with `r.get('id')`: absent
(`None`) and the empty string are falsy. -/
def truthyId (o : Option String) : Bool :=
  match o with
  | none => false
  | some s => s != ""

/-- One loop iteration of the `v_log_cambios_etapa` deduplicator:
`if not id_: continue` then `unique.setdefault(id_, r)`. -/
def stepFirst (idOf : α → Option String) (m : PyDict α) (r : α) : PyDict α :=
  match idOf r with
  | none => m
  | some s => if s = "" then m else dictSetdefault m s r

/-- One step of the dict-comprehension deduplicator
(`{r['id']: r for r in records if r.get('id')}`) used by
`log_vidrios_produccion`, `clientes` and the other non-`v_log` types:
key assignment, so a repeated key overwrites. -/
def stepLast (idOf : α → Option String) (m : PyDict α) (r : α) : PyDict α :=
  match idOf r with
  | none => m
  | some s => if s = "" then m else dictAssign m s r

/-- `deduplicate_by_id` from
`controllers/v_log_cambios_etapa/components/transform_data.py`: iterate in
input order, skip falsy ids, `setdefault` so the first occurrence of each id
is kept, return the dict's values. -/
def deduplicate_by_id_vlog (idOf : α → Option String) (records : List α) : List α :=
  dictValues (records.foldl (stepFirst idOf) [])

/-- `deduplicate_by_id` from
`controllers/log_vidrios_produccion/components/transform_data.py` (and the
identically-shaped copies in the other controllers): a dict comprehension,
so the last occurrence of each id wins. -/
def deduplicate_by_id_logvidrios (idOf : α → Option String) (records : List α) : List α :=
  dictValues (records.foldl (stepLast idOf) [])

/-- The non-empty identity keys of a batch, in input order with
multiplicity. -/
def truthyIds (idOf : α → Option String) (records : List α) : List String :=
  records.filterMap (fun r =>
    match idOf r with
    | none => none
    | some s => if s = "" then none else some s)

/-- Boolean test: does record `r` carry the non-empty identity key `k`? -/
def idMatches (idOf : α → Option String) (k : String) (r : α) : Bool :=
  match idOf r with
  | none => false
  | some s => s != "" && s == k

/-- The first record of the batch bearing identity key `k`. -/
def firstWithId (idOf : α → Option String) (records : List α) (k : String) : Option α :=
  records.find? (idMatches idOf k)

/-- The last record of the batch bearing identity key `k`. -/
def lastWithId (idOf : α → Option String) (records : List α) (k : String) : Option α :=
  firstWithId idOf records.reverse k


/-- First-biased choice on options. -/
def optOr (a b : Option α) : Option α :=
  match a with
  | some x => some x
  | none => b

theorem optOr_some_absorb (a : Option α) (r : α) (b : Option α) :
    optOr (optOr a (some r)) b = optOr a (some r) := by
  cases a <;> rfl

theorem optOr_assoc_some (a : Option α) (r : α) (b : Option α) :
    optOr a (optOr (some r) b) = optOr a (some r) := by
  cases a <;> rfl

/-- Dict lookup in the association-list model. -/
def dictGet (m : PyDict α) (k : String) : Option α :=
  match m with
  | [] => none
  | (k2, v) :: t => if k2 = k then some v else dictGet t k

theorem nodup_append_singleton (l : List String) (k : String) (h : l.Nodup) (hk : k ∉ l) :
    (l ++ [k]).Nodup := by
  induction l with
  | nil => simp
  | cons a t ih =>
    simp only [List.nodup_cons] at h
    simp only [List.mem_cons, not_or] at hk
    simp only [List.cons_append, List.nodup_cons]
    refine ⟨?_, ih h.2 hk.2⟩
    simp only [List.mem_append, List.mem_singleton]
    rintro (hh | hh)
    · exact h.1 hh
    · exact hk.1 hh.symm

theorem keysOf_assign (m : PyDict α) (k : String) (v : α) :
    keysOf (dictAssign m k v) = if k ∈ keysOf m then keysOf m else keysOf m ++ [k] := by
  induction m with
  | nil => simp [dictAssign, keysOf]
  | cons p t ih =>
    obtain ⟨k2, w⟩ := p
    by_cases h : k2 = k
    · subst h
      simp [dictAssign, keysOf]
    · have hkk2 : ¬(k = k2) := fun hh => h hh.symm
      simp only [dictAssign, if_neg h, keysOf, List.map_cons] at ih ⊢
      by_cases hm : k ∈ List.map (fun p => p.1) t
      · simp [hm, ih, hkk2]
      · simp only [hm, if_false] at ih
        simp [List.mem_cons, hkk2, hm, ih]

theorem keysOf_setdefault (m : PyDict α) (k : String) (v : α) :
    keysOf (dictSetdefault m k v) = if k ∈ keysOf m then keysOf m else keysOf m ++ [k] := by
  induction m with
  | nil => simp [dictSetdefault, keysOf]
  | cons p t ih =>
    obtain ⟨k2, w⟩ := p
    by_cases h : k2 = k
    · subst h
      simp [dictSetdefault, keysOf]
    · have hkk2 : ¬(k = k2) := fun hh => h hh.symm
      simp only [dictSetdefault, if_neg h, keysOf, List.map_cons] at ih ⊢
      by_cases hm : k ∈ List.map (fun p => p.1) t
      · simp [hm, ih, hkk2]
      · simp only [hm, if_false] at ih
        simp [List.mem_cons, hkk2, hm, ih]

theorem nodup_keysOf_assign (m : PyDict α) (k : String) (v : α)
    (h : (keysOf m).Nodup) : (keysOf (dictAssign m k v)).Nodup := by
  rw [keysOf_assign]
  by_cases hk : k ∈ keysOf m
  · simp [hk, h]
  · simp only [hk, if_false]
    exact nodup_append_singleton _ _ h hk

theorem nodup_keysOf_setdefault (m : PyDict α) (k : String) (v : α)
    (h : (keysOf m).Nodup) : (keysOf (dictSetdefault m k v)).Nodup := by
  rw [keysOf_setdefault]
  by_cases hk : k ∈ keysOf m
  · simp [hk, h]
  · simp only [hk, if_false]
    exact nodup_append_singleton _ _ h hk

theorem mem_keysOf_assign (m : PyDict α) (k a : String) (v : α) :
    a ∈ keysOf (dictAssign m k v) ↔ a ∈ keysOf m ∨ a = k := by
  rw [keysOf_assign]
  by_cases h : k ∈ keysOf m
  · simp only [h, if_true]
    constructor
    · exact fun h1 => Or.inl h1
    · rintro (h1 | rfl) <;> [exact h1; exact h]
  · simp [h]

theorem mem_keysOf_setdefault (m : PyDict α) (k a : String) (v : α) :
    a ∈ keysOf (dictSetdefault m k v) ↔ a ∈ keysOf m ∨ a = k := by
  rw [keysOf_setdefault]
  by_cases h : k ∈ keysOf m
  · simp only [h, if_true]
    constructor
    · exact fun h1 => Or.inl h1
    · rintro (h1 | rfl) <;> [exact h1; exact h]
  · simp [h]

theorem dictGet_assign_self (m : PyDict α) (k : String) (v : α) :
    dictGet (dictAssign m k v) k = some v := by
  induction m with
  | nil => simp [dictAssign, dictGet]
  | cons p t ih =>
    obtain ⟨k2, w⟩ := p
    by_cases h : k2 = k <;> simp [dictAssign, dictGet, h, ih]

theorem dictGet_assign_other (m : PyDict α) (k a : String) (v : α) (h : a ≠ k) :
    dictGet (dictAssign m k v) a = dictGet m a := by
  have hka : ¬(k = a) := fun hh => h hh.symm
  induction m with
  | nil => simp [dictAssign, dictGet, hka]
  | cons p t ih =>
    obtain ⟨k2, w⟩ := p
    by_cases h2 : k2 = k
    · subst h2
      simp [dictAssign, dictGet, hka]
    · simp [dictAssign, dictGet, h2, ih]

theorem dictGet_setdefault_self (m : PyDict α) (k : String) (v : α) :
    dictGet (dictSetdefault m k v) k = optOr (dictGet m k) (some v) := by
  induction m with
  | nil => simp [dictSetdefault, dictGet, optOr]
  | cons p t ih =>
    obtain ⟨k2, w⟩ := p
    by_cases h : k2 = k <;> simp [dictSetdefault, dictGet, h, ih, optOr]

theorem dictGet_setdefault_other (m : PyDict α) (k a : String) (v : α) (h : a ≠ k) :
    dictGet (dictSetdefault m k v) a = dictGet m a := by
  have hka : ¬(k = a) := fun hh => h hh.symm
  induction m with
  | nil => simp [dictSetdefault, dictGet, hka]
  | cons p t ih =>
    obtain ⟨k2, w⟩ := p
    by_cases h2 : k2 = k
    · subst h2
      simp [dictSetdefault, dictGet]
    · simp [dictSetdefault, dictGet, h2, ih]

theorem length_dictValues (m : PyDict α) :
    (dictValues m).length = (keysOf m).length := by
  simp [dictValues, keysOf]

theorem pair_mem_of_mem_values (m : PyDict α) (r : α) (h : r ∈ dictValues m) :
    ∃ k, (k, r) ∈ m := by
  induction m with
  | nil => simp [dictValues] at h
  | cons p t ih =>
    obtain ⟨k2, w⟩ := p
    simp only [dictValues, List.map_cons, List.mem_cons] at h
    rcases h with h | h
    · exact ⟨k2, by simp [h]⟩
    · obtain ⟨k, hk⟩ := ih h
      exact ⟨k, List.mem_cons_of_mem _ hk⟩

theorem dictGet_of_pair_mem (m : PyDict α) (k : String) (r : α)
    (hnd : (keysOf m).Nodup) (h : (k, r) ∈ m) : dictGet m k = some r := by
  induction m with
  | nil => simp at h
  | cons p t ih =>
    obtain ⟨k2, w⟩ := p
    simp only [List.mem_cons] at h
    simp only [keysOf, List.map_cons, List.nodup_cons] at hnd
    rcases h with h | h
    · rw [Prod.mk.injEq] at h
      simp [dictGet, h.1, h.2]
    · have hk : k ∈ List.map (fun p => p.1) t := by
        simp only [List.mem_map]
        exact ⟨(k, r), h, rfl⟩
      have hne : ¬(k2 = k) := fun hh => hnd.1 (hh ▸ hk)
      have ihr := ih hnd.2 h
      simp [dictGet, hne, ihr]


theorem truthyIds_cons_none (idOf : α → Option String) (r : α) (t : List α)
    (h : idOf r = none) : truthyIds idOf (r :: t) = truthyIds idOf t := by
  simp [truthyIds, List.filterMap_cons, h]

theorem truthyIds_cons_empty (idOf : α → Option String) (r : α) (t : List α)
    (s : String) (h : idOf r = some s) (hs : s = "") :
    truthyIds idOf (r :: t) = truthyIds idOf t := by
  simp [truthyIds, List.filterMap_cons, h, hs]

theorem truthyIds_cons_some (idOf : α → Option String) (r : α) (t : List α)
    (s : String) (h : idOf r = some s) (hs : ¬(s = "")) :
    truthyIds idOf (r :: t) = s :: truthyIds idOf t := by
  simp [truthyIds, List.filterMap_cons, h, hs]

theorem stepFirst_none (idOf : α → Option String) (m : PyDict α) (r : α)
    (h : idOf r = none) : stepFirst idOf m r = m := by
  simp [stepFirst, h]

theorem stepFirst_empty (idOf : α → Option String) (m : PyDict α) (r : α)
    (s : String) (h : idOf r = some s) (hs : s = "") : stepFirst idOf m r = m := by
  simp [stepFirst, h, hs]

theorem stepFirst_some (idOf : α → Option String) (m : PyDict α) (r : α)
    (s : String) (h : idOf r = some s) (hs : ¬(s = "")) :
    stepFirst idOf m r = dictSetdefault m s r := by
  simp [stepFirst, h, hs]

theorem stepLast_none (idOf : α → Option String) (m : PyDict α) (r : α)
    (h : idOf r = none) : stepLast idOf m r = m := by
  simp [stepLast, h]

theorem stepLast_empty (idOf : α → Option String) (m : PyDict α) (r : α)
    (s : String) (h : idOf r = some s) (hs : s = "") : stepLast idOf m r = m := by
  simp [stepLast, h, hs]

theorem stepLast_some (idOf : α → Option String) (m : PyDict α) (r : α)
    (s : String) (h : idOf r = some s) (hs : ¬(s = "")) :
    stepLast idOf m r = dictAssign m s r := by
  simp [stepLast, h, hs]

theorem mem_keysOf_foldFirst (idOf : α → Option String) :
    ∀ (records : List α) (m : PyDict α) (a : String),
      a ∈ keysOf (records.foldl (stepFirst idOf) m) ↔
        a ∈ keysOf m ∨ a ∈ truthyIds idOf records := by
  intro records
  induction records with
  | nil => simp [truthyIds]
  | cons r t ih =>
    intro m a
    rw [List.foldl_cons, ih]
    cases h : idOf r with
    | none =>
      rw [truthyIds_cons_none idOf r t h, stepFirst_none idOf m r h]
    | some s =>
      by_cases hs : s = ""
      · rw [truthyIds_cons_empty idOf r t s h hs, stepFirst_empty idOf m r s h hs]
      · rw [truthyIds_cons_some idOf r t s h hs, stepFirst_some idOf m r s h hs,
          mem_keysOf_setdefault, List.mem_cons]
        tauto

theorem mem_keysOf_foldLast (idOf : α → Option String) :
    ∀ (records : List α) (m : PyDict α) (a : String),
      a ∈ keysOf (records.foldl (stepLast idOf) m) ↔
        a ∈ keysOf m ∨ a ∈ truthyIds idOf records := by
  intro records
  induction records with
  | nil => simp [truthyIds]
  | cons r t ih =>
    intro m a
    rw [List.foldl_cons, ih]
    cases h : idOf r with
    | none =>
      rw [truthyIds_cons_none idOf r t h, stepLast_none idOf m r h]
    | some s =>
      by_cases hs : s = ""
      · rw [truthyIds_cons_empty idOf r t s h hs, stepLast_empty idOf m r s h hs]
      · rw [truthyIds_cons_some idOf r t s h hs, stepLast_some idOf m r s h hs,
          mem_keysOf_assign, List.mem_cons]
        tauto

theorem nodup_keysOf_foldFirst (idOf : α → Option String) :
    ∀ (records : List α) (m : PyDict α), (keysOf m).Nodup →
      (keysOf (records.foldl (stepFirst idOf) m)).Nodup := by
  intro records
  induction records with
  | nil => exact fun m h => h
  | cons r t ih =>
    intro m hm
    rw [List.foldl_cons]
    apply ih
    cases h : idOf r with
    | none => rw [stepFirst_none idOf m r h]; exact hm
    | some s =>
      by_cases hs : s = ""
      · rw [stepFirst_empty idOf m r s h hs]; exact hm
      · rw [stepFirst_some idOf m r s h hs]
        exact nodup_keysOf_setdefault m s r hm

theorem nodup_keysOf_foldLast (idOf : α → Option String) :
    ∀ (records : List α) (m : PyDict α), (keysOf m).Nodup →
      (keysOf (records.foldl (stepLast idOf) m)).Nodup := by
  intro records
  induction records with
  | nil => exact fun m h => h
  | cons r t ih =>
    intro m hm
    rw [List.foldl_cons]
    apply ih
    cases h : idOf r with
    | none => rw [stepLast_none idOf m r h]; exact hm
    | some s =>
      by_cases hs : s = ""
      · rw [stepLast_empty idOf m r s h hs]; exact hm
      · rw [stepLast_some idOf m r s h hs]
        exact nodup_keysOf_assign m s r hm

theorem length_of_nodup_mem_iff (l₁ l₂ : List String)
    (h₁ : l₁.Nodup) (h₂ : l₂.Nodup) (h : ∀ a, a ∈ l₁ ↔ a ∈ l₂) :
    l₁.length = l₂.length := by
  have heq : l₁.toFinset = l₂.toFinset := by
    ext a
    simp [List.mem_toFinset, h a]
  exact (List.perm_of_nodup_nodup_toFinset_eq h₁ h₂ heq).length_eq

theorem length_dedupe_vlog (idOf : α → Option String) (records : List α) :
    (deduplicate_by_id_vlog idOf records).length =
      (truthyIds idOf records).dedup.length := by
  unfold deduplicate_by_id_vlog
  rw [length_dictValues]
  apply length_of_nodup_mem_iff
  · exact nodup_keysOf_foldFirst idOf records [] (by simp [keysOf])
  · exact (truthyIds idOf records).nodup_dedup
  · intro a
    rw [mem_keysOf_foldFirst idOf records [] a, List.mem_dedup]
    simp [keysOf]

theorem length_dedupe_logvidrios (idOf : α → Option String) (records : List α) :
    (deduplicate_by_id_logvidrios idOf records).length =
      (truthyIds idOf records).dedup.length := by
  unfold deduplicate_by_id_logvidrios
  rw [length_dictValues]
  apply length_of_nodup_mem_iff
  · exact nodup_keysOf_foldLast idOf records [] (by simp [keysOf])
  · exact (truthyIds idOf records).nodup_dedup
  · intro a
    rw [mem_keysOf_foldLast idOf records [] a, List.mem_dedup]
    simp [keysOf]


theorem optOr_none_right (a : Option α) : optOr a none = a := by
  cases a <;> rfl

theorem idMatches_false_none (idOf : α → Option String) (k : String) (r : α)
    (h : idOf r = none) : idMatches idOf k r = false := by
  simp [idMatches, h]

theorem idMatches_false_empty (idOf : α → Option String) (k : String) (r : α)
    (s : String) (h : idOf r = some s) (hs : s = "") : idMatches idOf k r = false := by
  simp [idMatches, h, hs]

theorem idMatches_true (idOf : α → Option String) (r : α)
    (s : String) (h : idOf r = some s) (hs : ¬(s = "")) : idMatches idOf s r = true := by
  simp [idMatches, h, hs]

theorem idMatches_false_other (idOf : α → Option String) (k : String) (r : α)
    (s : String) (h : idOf r = some s) (hk : ¬(s = k)) : idMatches idOf k r = false := by
  simp [idMatches, h, hk]

theorem findOr_append (p : α → Bool) (l₁ l₂ : List α) :
    List.find? p (l₁ ++ l₂) = optOr (List.find? p l₁) (List.find? p l₂) := by
  induction l₁ with
  | nil => simp [optOr]
  | cons a t ih =>
    by_cases h : p a
    · simp [List.find?_cons_of_pos _ h, optOr]
    · simp only [List.cons_append]
      rw [List.find?_cons_of_neg _ (by simpa using h),
        List.find?_cons_of_neg _ (by simpa using h), ih]

theorem dictGet_foldFirst (idOf : α → Option String) :
    ∀ (records : List α) (m : PyDict α) (k : String),
      dictGet (records.foldl (stepFirst idOf) m) k =
        optOr (dictGet m k) (firstWithId idOf records k) := by
  intro records
  induction records with
  | nil =>
    intro m k
    simp [firstWithId, optOr_none_right]
  | cons r t ih =>
    intro m k
    rw [List.foldl_cons, ih]
    unfold firstWithId
    cases h : idOf r with
    | none =>
      rw [stepFirst_none idOf m r h,
        List.find?_cons_of_neg _ (by simp [idMatches_false_none idOf k r h])]
    | some s =>
      by_cases hs : s = ""
      · rw [stepFirst_empty idOf m r s h hs,
          List.find?_cons_of_neg _ (by simp [idMatches_false_empty idOf k r s h hs])]
      · rw [stepFirst_some idOf m r s h hs]
        by_cases hk : k = s
        · subst hk
          rw [List.find?_cons_of_pos _ (idMatches_true idOf r k h hs),
            dictGet_setdefault_self, optOr_some_absorb]
        · have hsk : ¬(s = k) := fun hh => hk hh.symm
          rw [dictGet_setdefault_other m s k r hk,
            List.find?_cons_of_neg _ (by simp [idMatches_false_other idOf k r s h hsk])]

theorem lastWithId_cons (idOf : α → Option String) (r : α) (t : List α) (k : String) :
    lastWithId idOf (r :: t) k =
      optOr (lastWithId idOf t k) (if idMatches idOf k r then some r else none) := by
  unfold lastWithId firstWithId
  rw [List.reverse_cons, findOr_append]
  congr 1
  by_cases h : idMatches idOf k r
  · rw [List.find?_cons_of_pos _ h]
    simp [h]
  · rw [List.find?_cons_of_neg _ (by simpa using h)]
    simp [h, List.find?]

theorem dictGet_foldLast (idOf : α → Option String) :
    ∀ (records : List α) (m : PyDict α) (k : String),
      dictGet (records.foldl (stepLast idOf) m) k =
        optOr (lastWithId idOf records k) (dictGet m k) := by
  intro records
  induction records with
  | nil =>
    intro m k
    simp [lastWithId, firstWithId, optOr]
  | cons r t ih =>
    intro m k
    rw [List.foldl_cons, ih, lastWithId_cons]
    cases h : idOf r with
    | none =>
      rw [stepLast_none idOf m r h, idMatches_false_none idOf k r h]
      simp only [Bool.false_eq_true, if_false, optOr_none_right]
    | some s =>
      by_cases hs : s = ""
      · rw [stepLast_empty idOf m r s h hs, idMatches_false_empty idOf k r s h hs]
        simp only [Bool.false_eq_true, if_false, optOr_none_right]
      · by_cases hk : k = s
        · subst hk
          rw [stepLast_some idOf m r k h hs, dictGet_assign_self,
            idMatches_true idOf r k h hs]
          simp only [if_true]
          rw [optOr_some_absorb]
        · have hsk : ¬(s = k) := fun hh => hk hh.symm
          rw [stepLast_some idOf m r s h hs, dictGet_assign_other m s k r hk,
            idMatches_false_other idOf k r s h hsk]
          simp only [Bool.false_eq_true, if_false, optOr_none_right]

theorem mem_dedupe_vlog_is_first (idOf : α → Option String) (records : List α) (r : α)
    (h : r ∈ deduplicate_by_id_vlog idOf records) :
    ∃ k, firstWithId idOf records k = some r := by
  obtain ⟨k, hk⟩ := pair_mem_of_mem_values _ r h
  have hnd := nodup_keysOf_foldFirst idOf records [] (by simp [keysOf])
  have hget := dictGet_of_pair_mem _ k r hnd hk
  refine ⟨k, ?_⟩
  have hfold := dictGet_foldFirst idOf records [] k
  rw [hget] at hfold
  simpa [dictGet, optOr] using hfold.symm

theorem mem_dedupe_logvidrios_is_last (idOf : α → Option String) (records : List α) (r : α)
    (h : r ∈ deduplicate_by_id_logvidrios idOf records) :
    ∃ k, lastWithId idOf records k = some r := by
  obtain ⟨k, hk⟩ := pair_mem_of_mem_values _ r h
  have hnd := nodup_keysOf_foldLast idOf records [] (by simp [keysOf])
  have hget := dictGet_of_pair_mem _ k r hnd hk
  refine ⟨k, ?_⟩
  have hfold := dictGet_foldLast idOf records [] k
  rw [hget] at hfold
  cases hl : lastWithId idOf records k with
  | none => rw [hl] at hfold; simp [dictGet, optOr] at hfold
  | some x => rw [hl] at hfold; simpa [optOr] using hfold.symm

/-- Concrete record type for running the deduplicators on explicit inputs:
an optional `id` field plus a payload that distinguishes occurrences. -/
structure TestRec where
  rid : Option String
  payload : Nat
deriving Repr, DecidableEq


/-- C7: date normalization maps `"2024-05-30T20:56:43Z"` to
`"2024-05-30 20:56:43"`; absent (`None`) and empty inputs give `None`; any
string the ISO-8601 parser rejects gives `None`; the function is total
(the Python original never raises — every failure lands in the `except`
arm, which returns `None`). -/
theorem parse_oracle_date_spec :
    parse_oracle_date (some "2024-05-30T20:56:43Z") = some "2024-05-30 20:56:43"
    ∧ parse_oracle_date none = none
    ∧ parse_oracle_date (some "") = none
    ∧ parse_oracle_date (some "not-a-date") = none
    ∧ ∀ s : String, fromisoformat (pyReplaceZ s) = none →
        parse_oracle_date (some s) = none := by
  refine ⟨by decide, rfl, by decide, by decide, ?_⟩
  intro s h
  unfold parse_oracle_date
  by_cases hs : s = ""
  · simp [hs]
  · simp [hs, h]

/-- Witness for `parse_oracle_date_spec`: its universally quantified clause
applied at the concrete unparsable string `"zzz"`. -/
theorem parse_oracle_date_spec_witness :
    parse_oracle_date (some "zzz") = none :=
  parse_oracle_date_spec.2.2.2.2 "zzz" (by decide)

/-- C2 (amended): for every batch, each deduplicator keeps exactly one
record per distinct non-empty identity key; the `v_log_cambios_etapa`
variant keeps the first occurrence of each key, while the
`log_vidrios_produccion` variant (a log type as well) and the other
controllers' identically-shaped variants keep the last occurrence. -/
theorem deduplicate_by_id_spec (idOf : α → Option String) (records : List α) :
    (deduplicate_by_id_vlog idOf records).length =
        (truthyIds idOf records).dedup.length
    ∧ (deduplicate_by_id_logvidrios idOf records).length =
        (truthyIds idOf records).dedup.length
    ∧ (∀ k, dictGet (records.foldl (stepFirst idOf) []) k =
        firstWithId idOf records k)
    ∧ (∀ k, dictGet (records.foldl (stepLast idOf) []) k =
        lastWithId idOf records k)
    ∧ (∀ r, r ∈ deduplicate_by_id_vlog idOf records →
        ∃ k, firstWithId idOf records k = some r)
    ∧ (∀ r, r ∈ deduplicate_by_id_logvidrios idOf records →
        ∃ k, lastWithId idOf records k = some r) := by
  refine ⟨length_dedupe_vlog idOf records, length_dedupe_logvidrios idOf records,
    ?_, ?_, fun r h => mem_dedupe_vlog_is_first idOf records r h,
    fun r h => mem_dedupe_logvidrios_is_last idOf records r h⟩
  · intro k
    have h := dictGet_foldFirst idOf records [] k
    simpa [dictGet, optOr] using h
  · intro k
    have h := dictGet_foldLast idOf records [] k
    cases hl : lastWithId idOf records k with
    | none => rw [hl] at h; simpa [dictGet, optOr] using h
    | some x => rw [hl] at h; simpa [optOr] using h

/-- Witness for `deduplicate_by_id_spec`: the
membership clause applied to a concrete batch. -/
theorem deduplicate_by_id_spec_witness :
    ∃ k, firstWithId TestRec.rid [TestRec.mk (some "a") 1] k
      = some (TestRec.mk (some "a") 1) :=
  (deduplicate_by_id_spec TestRec.rid [TestRec.mk (some "a") 1]).2.2.2.2.1
    (TestRec.mk (some "a") 1) (by decide)

/-- C2 counterexample: `deduplicate_by_id` of `log_vidrios_produccion` — a
log-type record type — keeps the LAST occurrence of a repeated key, not the
first one the claim prescribes for log types. -/
theorem deduplicate_by_id_logvidrios_keeps_last :
    deduplicate_by_id_logvidrios TestRec.rid
        [TestRec.mk (some "k") 1, TestRec.mk (some "k") 2]
      = [TestRec.mk (some "k") 2]
    ∧ deduplicate_by_id_logvidrios TestRec.rid
        [TestRec.mk (some "k") 1, TestRec.mk (some "k") 2]
      ≠ [TestRec.mk (some "k") 1] := by
  exact ⟨by decide, by decide⟩


/-! ## HTTP retry loops

`http_get` (`utils/http_client.py`) makes up to `max_retries` attempts; a
200 with parseable JSON returns the data, a 404 returns `(None, True)`
("no data, not an error"), a 200 with unparseable JSON returns
`(None, False)`, and any other status or transport exception falls through
to an exponential-backoff sleep of `retry_delay * 2 ** (attempt - 1)`
before the next attempt.  `OracleApexClient._fetch_batch`
(`src/clients/oracle_client.py`) is the second retry loop: 0-based
attempts, constant `time.sleep(retry_delay)` between attempts, 200 returns
`data.get('items', [])`, 404 returns `([], True)`, exhaustion returns
`([], False)`.  The network is an oracle from the attempt number to that
attempt's outcome; sleeps are recorded in a list. -/

/-- Outcome of one HTTP attempt, as `http_get` distinguishes them. -/
inductive HttpAttempt (α : Type) where
  | ok (data : α)
  | badJson
  | notFound
  | httpStatus (code : Nat)
  | transportError

/-- Is this outcome one that `http_get` retries? -/
def retryable : HttpAttempt α → Bool
  | .httpStatus _ => true
  | .transportError => true
  | _ => false

/-- Result of `http_get`: the returned `(data, success)` pair plus the
recorded sleeps and the number of requests issued. -/
structure HttpResult (α : Type) where
  data : Option α
  ok : Bool
  waits : List ℚ
  attempts : Nat
deriving Repr

/-- The `for attempt in range(1, max_retries + 1)` loop of `http_get`,
entered at `attempt`. -/
def http_get_go (resp : Nat → HttpAttempt α) (maxRetries : Nat) (retryDelay : ℚ)
    (attempt : Nat) : HttpResult α :=
  if _h : maxRetries < attempt then ⟨none, false, [], 0⟩
  else
    match resp attempt with
    | .ok d => ⟨some d, true, [], 1⟩
    | .badJson => ⟨none, false, [], 1⟩
    | .notFound => ⟨none, true, [], 1⟩
    | .httpStatus _ =>
        if h2 : attempt < maxRetries then
          let r := http_get_go resp maxRetries retryDelay (attempt + 1)
          ⟨r.data, r.ok, retryDelay * 2 ^ (attempt - 1) :: r.waits, r.attempts + 1⟩
        else ⟨none, false, [], 1⟩
    | .transportError =>
        if h2 : attempt < maxRetries then
          let r := http_get_go resp maxRetries retryDelay (attempt + 1)
          ⟨r.data, r.ok, retryDelay * 2 ^ (attempt - 1) :: r.waits, r.attempts + 1⟩
        else ⟨none, false, [], 1⟩
termination_by maxRetries + 1 - attempt
decreasing_by all_goals omega

/-- `http_get` from `utils/http_client.py` (attempts are numbered from 1). -/
def http_get (resp : Nat → HttpAttempt α) (maxRetries : Nat) (retryDelay : ℚ) :
    HttpResult α :=
  http_get_go resp maxRetries retryDelay 1

/-- Outcome of one attempt as `_fetch_batch` distinguishes them. -/
inductive OracleAttempt (α : Type) where
  | ok (items : List α)
  | notFound
  | err

/-- Result of `_fetch_batch`: the `(records, success)` pair plus recorded
sleeps and number of requests issued. -/
structure OracleFetchResult (α : Type) where
  records : List α
  ok : Bool
  waits : List ℚ
  attempts : Nat
deriving Repr

/-- The `for attempt in range(max_retries)` loop of
`OracleApexClient._fetch_batch`, entered at 0-based `attempt`; sleeps are a
constant `retry_delay` (`if attempt < max_retries - 1`). -/
def fetch_batch_go (resp : Nat → OracleAttempt α) (maxRetries : Nat) (retryDelay : ℚ)
    (attempt : Nat) : OracleFetchResult α :=
  if _h : maxRetries ≤ attempt then ⟨[], false, [], 0⟩
  else
    match resp attempt with
    | .ok items => ⟨items, true, [], 1⟩
    | .notFound => ⟨[], true, [], 1⟩
    | .err =>
        if h2 : attempt < maxRetries - 1 then
          let r := fetch_batch_go resp maxRetries retryDelay (attempt + 1)
          ⟨r.records, r.ok, retryDelay :: r.waits, r.attempts + 1⟩
        else ⟨[], false, [], 1⟩
termination_by maxRetries - attempt
decreasing_by all_goals omega

/-- `OracleApexClient._fetch_batch` (attempts numbered from 0). -/
def oracle_fetch_batch (resp : Nat → OracleAttempt α) (maxRetries : Nat)
    (retryDelay : ℚ) : OracleFetchResult α :=
  fetch_batch_go resp maxRetries retryDelay 0

theorem http_get_go_all_fail (resp : Nat → HttpAttempt α) (maxRetries : Nat)
    (retryDelay : ℚ) :
    ∀ (n attempt : Nat), 1 ≤ attempt → attempt ≤ maxRetries →
      maxRetries - attempt = n →
      (∀ i, attempt ≤ i → i ≤ maxRetries → retryable (resp i) = true) →
      http_get_go resp maxRetries retryDelay attempt =
        ⟨none, false,
          (List.range n).map (fun k => retryDelay * 2 ^ (attempt - 1 + k)), n + 1⟩ := by
  intro n
  induction n with
  | zero =>
    intro attempt h1 h2 hn hfail
    have heq : attempt = maxRetries := by omega
    have hr := hfail attempt (le_refl _) h2
    unfold http_get_go
    rw [dif_neg (by omega)]
    cases hresp : resp attempt with
    | ok d => rw [hresp] at hr; simp [retryable] at hr
    | badJson => rw [hresp] at hr; simp [retryable] at hr
    | notFound => rw [hresp] at hr; simp [retryable] at hr
    | httpStatus c => rw [dif_neg (by omega)]; simp
    | transportError => rw [dif_neg (by omega)]; simp
  | succ n ih =>
    intro attempt h1 h2 hn hfail
    have hlt : attempt < maxRetries := by omega
    have hr := hfail attempt (le_refl _) h2
    have hrec := ih (attempt + 1) (by omega) (by omega) (by omega)
      (fun i hi1 hi2 => hfail i (by omega) hi2)
    have hwaits :
        retryDelay * 2 ^ (attempt - 1) ::
            (List.range n).map (fun k => retryDelay * 2 ^ (attempt + 1 - 1 + k)) =
          (List.range (n + 1)).map (fun k => retryDelay * 2 ^ (attempt - 1 + k)) := by
      rw [List.range_succ_eq_map, List.map_cons, List.map_map]
      refine List.cons_eq_cons.mpr ⟨by rw [Nat.add_zero], ?_⟩
      apply List.map_congr_left
      intro k _
      simp only [Function.comp_apply, Nat.succ_eq_add_one]
      have hx : attempt + 1 - 1 + k = attempt - 1 + (k + 1) := by omega
      rw [hx]
    unfold http_get_go
    rw [dif_neg (by omega)]
    cases hresp : resp attempt with
    | ok d => rw [hresp] at hr; simp [retryable] at hr
    | badJson => rw [hresp] at hr; simp [retryable] at hr
    | notFound => rw [hresp] at hr; simp [retryable] at hr
    | httpStatus c =>
      rw [dif_pos hlt]
      simp only [hrec, hwaits]
    | transportError =>
      rw [dif_pos hlt]
      simp only [hrec, hwaits]

theorem fetch_batch_go_all_fail (resp : Nat → OracleAttempt α) (maxRetries : Nat)
    (retryDelay : ℚ) :
    ∀ (n attempt : Nat), attempt < maxRetries →
      maxRetries - 1 - attempt = n →
      (∀ i, attempt ≤ i → i < maxRetries → resp i = OracleAttempt.err) →
      fetch_batch_go resp maxRetries retryDelay attempt =
        ⟨[], false, List.replicate n retryDelay, n + 1⟩ := by
  intro n
  induction n with
  | zero =>
    intro attempt h1 hn hfail
    unfold fetch_batch_go
    rw [dif_neg (by omega)]
    rw [hfail attempt (le_refl _) h1]
    rw [dif_neg (by omega)]
    simp
  | succ n ih =>
    intro attempt h1 hn hfail
    have hrec := ih (attempt + 1) (by omega) (by omega)
      (fun i hi1 hi2 => hfail i (by omega) hi2)
    unfold fetch_batch_go
    rw [dif_neg (by omega)]
    rw [hfail attempt (le_refl _) h1]
    rw [dif_pos (by omega)]
    simp only [hrec, List.replicate_succ]


/-- C6 (amended): a 404 on the first attempt returns immediately as an
empty successful result with no retry, in both clients; when every attempt
fails retryably, `http_get` makes exactly `maxRetries` requests with
exponential waits `retryDelay * 2 ^ k` (`k = 0, 1, ...`) between them,
while `OracleApexClient._fetch_batch` makes exactly `maxRetries` requests
with a CONSTANT wait of `retryDelay` between them (no exponential
backoff on that path). -/
theorem retry_policy_spec (α : Type) (resp : Nat → HttpAttempt α)
    (orsp : Nat → OracleAttempt α) (maxRetries : Nat) (retryDelay : ℚ)
    (hmr : 1 ≤ maxRetries) :
    (resp 1 = HttpAttempt.notFound →
      http_get resp maxRetries retryDelay = ⟨none, true, [], 1⟩)
    ∧ ((∀ i, 1 ≤ i → i ≤ maxRetries → retryable (resp i) = true) →
      http_get resp maxRetries retryDelay =
        ⟨none, false, (List.range (maxRetries - 1)).map (fun k => retryDelay * 2 ^ k),
          maxRetries⟩)
    ∧ (orsp 0 = OracleAttempt.notFound →
      oracle_fetch_batch orsp maxRetries retryDelay = ⟨[], true, [], 1⟩)
    ∧ ((∀ i, i < maxRetries → orsp i = OracleAttempt.err) →
      oracle_fetch_batch orsp maxRetries retryDelay =
        ⟨[], false, List.replicate (maxRetries - 1) retryDelay, maxRetries⟩) := by
  refine ⟨?_, ?_, ?_, ?_⟩
  · intro h404
    unfold http_get http_get_go
    rw [dif_neg (by omega), h404]
  · intro hfail
    unfold http_get
    rw [http_get_go_all_fail resp maxRetries retryDelay (maxRetries - 1) 1
      (le_refl _) hmr (by omega) hfail]
    have hend : maxRetries - 1 + 1 = maxRetries := by omega
    rw [hend]
    congr 1
    apply List.map_congr_left
    intro k _
    norm_num
  · intro h404
    unfold oracle_fetch_batch fetch_batch_go
    rw [dif_neg (by omega), h404]
  · intro hfail
    unfold oracle_fetch_batch
    rw [fetch_batch_go_all_fail orsp maxRetries retryDelay (maxRetries - 1) 0
      (by omega) (by omega) (fun i _ h2 => hfail i h2)]
    have hend : maxRetries - 1 + 1 = maxRetries := by omega
    rw [hend]

/-- Witness for `retry_policy_spec`: a 404 on the first attempt with
`max_retries = 3` returns `(None, True)` at once. -/
theorem retry_policy_spec_witness :
    http_get (fun _ => HttpAttempt.notFound (α := Unit)) 3 2 = ⟨none, true, [], 1⟩ :=
  (retry_policy_spec Unit (fun _ => HttpAttempt.notFound)
    (fun _ => OracleAttempt.err) 3 2 (by omega)).1 rfl

/-- C6 counterexample: with `max_retries = 3`, `retry_delay = 2` and every
attempt failing, `_fetch_batch` sleeps `[2, 2]`: the wait before the third
attempt is the constant `retry_delay = 2`, not the exponential
`retry_delay * 2 ^ (attempt - 1) = 4` the claim prescribes for every page
request. -/
theorem oracle_fetch_batch_constant_delay :
    (oracle_fetch_batch (fun _ => OracleAttempt.err (α := Unit)) 3 2).waits = [2, 2]
    ∧ (oracle_fetch_batch (fun _ => OracleAttempt.err (α := Unit)) 3 2).waits
        ≠ [2 * 2 ^ 0, 2 * 2 ^ 1] := by
  have h := fetch_batch_go_all_fail (fun _ => OracleAttempt.err (α := Unit)) 3 2 2 0
    (by omega) (by omega) (fun i _ _ => rfl)
  unfold oracle_fetch_batch
  rw [h]
  refine ⟨rfl, ?_⟩
  intro hc
  rw [show List.replicate 2 (2 : ℚ) = [2, 2] from rfl] at hc
  rw [List.cons_eq_cons, List.cons_eq_cons] at hc
  norm_num at hc


/-! ## Paginated fetch loops

`http_get_all_pages` (`utils/http_client.py`): offset-based loop around
`http_get`; stops on a failed page, an empty extracted item list, a falsy
`hasMore` (`data.get('hasMore', False)` — dict responses only, every other
shape counts as no-more), an optional `max_records` cap, or the `page >
10000` safety ceiling; every stop except a failed page returns the
accumulator with success.

`fetch_all_direct`
(`controllers/v_log_cambios_etapa/components/get_data.py`): same shape,
but a missing body counts as a failure that returns `([], False)`, a bare
array page computes `has_more = len(items) == page_size`, and the safety
ceiling is 200 000 pages.

`OracleApexClient.fetch_all` (`src/clients/oracle_client.py`): loops
`_fetch_batch` until a failed or empty batch; no has-more check and no page
ceiling, so the embedding carries explicit fuel, with `finished = true`
recording that the Python loop exited through one of its own `break`s.

The network is an oracle from the request offset to the page response. -/

/-- A page body: `arr` is a bare JSON array; `obj` is a JSON object,
carrying the item list the container-key chain (`items`/`rows`/`data`)
extracts from it and its `hasMore` field.  `Option (ApexResp α)` adds the
bodyless 404 case (`http_get` returns `(None, True)`). -/
inductive ApexResp (α : Type) where
  | arr (items : List α)
  | obj (extracted : List α) (hasMore : Bool)

/-- `extract_items_from_response`: no body → `[]`, bare array → itself,
object → its extracted list. -/
def extract_items : Option (ApexResp α) → List α
  | none => []
  | some (.arr l) => l
  | some (.obj l _) => l

/-- `data.get('hasMore', False)` as `http_get_all_pages` reads it: only a
dict response can be truthy. -/
def hasMoreOf : Option (ApexResp α) → Bool
  | some (.obj _ hm) => hm
  | _ => false

/-- Python truthiness of the `max_records` cap
(`if max_records and len(all_records) >= max_records`). -/
def maxRecordsHit (maxRecords : Option Nat) (count : Nat) : Bool :=
  match maxRecords with
  | none => false
  | some mx => if mx = 0 then false else decide (mx ≤ count)

/-- Result of a paginated fetch: the returned `(records, success)` pair
plus the number of page requests issued. -/
structure PagesResult (α : Type) where
  records : List α
  ok : Bool
  requests : Nat
deriving Repr, DecidableEq

/-- The `while True` loop of `http_get_all_pages`, at page number `page`
(1-based) and offset `offset` with accumulator `acc`.  The safety ceiling
mirrors the source: the page counter is advanced and then checked against
10000 before the next request. -/
def http_get_all_pages_go (src : Nat → Option (ApexResp α) × Bool) (limit : Nat)
    (maxRecords : Option Nat) (page offset : Nat) (acc : List α) : PagesResult α :=
  let r := src offset
  if r.2 = false then ⟨acc, false, 1⟩
  else
    let items := extract_items r.1
    if items.isEmpty then ⟨acc, true, 1⟩
    else
      let acc2 := acc ++ items
      if hasMoreOf r.1 = false then ⟨acc2, true, 1⟩
      else if maxRecordsHit maxRecords acc2.length then ⟨acc2, true, 1⟩
      else if _h : page + 1 > 10000 then ⟨acc2, true, 1⟩
      else
        let res := http_get_all_pages_go src limit maxRecords (page + 1)
          (offset + limit) acc2
        ⟨res.records, res.ok, res.requests + 1⟩
termination_by 10001 - page
decreasing_by omega

/-- `http_get_all_pages` from `utils/http_client.py`. -/
def http_get_all_pages (src : Nat → Option (ApexResp α) × Bool) (limit : Nat)
    (maxRecords : Option Nat) : PagesResult α :=
  http_get_all_pages_go src limit maxRecords 1 0 []

/-- The `has_more` value `fetch_all_direct` computes: dict responses use
the `hasMore` field, bare arrays use the page-fullness heuristic
`len(items) == page_size`. -/
def directHasMore (pageSize : Nat) : Option (ApexResp α) → Bool
  | some (.arr l) => l.length == pageSize
  | some (.obj _ hm) => hm
  | none => false

/-- The `while True` loop of `fetch_all_direct` (buffered mode), at Python
page counter `page` (incremented at the top of each iteration, so the
request below is page `page + 1`). -/
def fetch_all_direct_go (src : Nat → Option (ApexResp α) × Bool) (pageSize : Nat)
    (page offset : Nat) (acc : List α) : PagesResult α :=
  let r := src offset
  if r.2 = false || r.1.isNone then ⟨[], false, 1⟩
  else
    let items := extract_items r.1
    if items.isEmpty then ⟨acc, true, 1⟩
    else
      let acc2 := acc ++ items
      if directHasMore pageSize r.1 = false then ⟨acc2, true, 1⟩
      else if _h : page + 1 ≥ 200000 then ⟨acc2, true, 1⟩
      else
        let res := fetch_all_direct_go src pageSize (page + 1) (offset + pageSize) acc2
        ⟨res.records, res.ok, res.requests + 1⟩
termination_by 200000 - page
decreasing_by omega

/-- `fetch_all_direct` in buffered mode (`batch_callback = None`). -/
def fetch_all_direct (src : Nat → Option (ApexResp α) × Bool) (pageSize : Nat) :
    PagesResult α :=
  fetch_all_direct_go src pageSize 0 0 []

/-- Result of `OracleApexClient.fetch_all`: the record list (the Python
function returns only this), the number of `_fetch_batch` calls, and
whether the loop exited through one of its own `break`s (`false` means the
embedding's fuel ran out first). -/
structure FetchAllResult (α : Type) where
  records : List α
  requests : Nat
  finished : Bool
deriving Repr, DecidableEq

/-- The `while True` loop of `OracleApexClient.fetch_all`; `src` maps an
offset to `_fetch_batch`'s `(records, success)`.  The Python loop has no
page ceiling, hence the explicit fuel. -/
def fetch_all_go (src : Nat → List α × Bool) (batchSize : Nat) :
    Nat → Nat → List α → FetchAllResult α
  | 0, _, acc => ⟨acc, 0, false⟩
  | fuel + 1, offset, acc =>
      let r := src offset
      if r.2 = false then ⟨acc, 1, true⟩
      else if r.1.isEmpty then ⟨acc, 1, true⟩
      else
        let res := fetch_all_go src batchSize fuel (offset + batchSize) (acc ++ r.1)
        ⟨res.records, res.requests + 1, res.finished⟩

/-- `OracleApexClient.fetch_all` (with fuel). -/
def fetch_all (src : Nat → List α × Bool) (batchSize fuel : Nat) : FetchAllResult α :=
  fetch_all_go src batchSize fuel 0 []

/-- A well-behaved paged source holding exactly the records `recs`: offset
`o` answers with the slice `recs[o : o + P]` and an accurate `hasMore`. -/
def sliceSrc (recs : List α) (P : Nat) (o : Nat) : Option (ApexResp α) × Bool :=
  (some (.obj ((recs.drop o).take P) (decide (o + P < recs.length))), true)

/-- The same well-behaved source at the `_fetch_batch` interface. -/
def sliceSrcB (recs : List α) (P : Nat) (o : Nat) : List α × Bool :=
  ((recs.drop o).take P, true)


theorem http_pages_go_fail (src : Nat → Option (ApexResp α) × Bool) (limit : Nat)
    (maxRecords : Option Nat) (page offset : Nat) (acc : List α)
    (h : (src offset).2 = false) :
    http_get_all_pages_go src limit maxRecords page offset acc = ⟨acc, false, 1⟩ := by
  unfold http_get_all_pages_go
  simp only [h, if_pos]

theorem http_pages_go_empty (src : Nat → Option (ApexResp α) × Bool) (limit : Nat)
    (maxRecords : Option Nat) (page offset : Nat) (acc : List α)
    (h2 : (src offset).2 = true) (h : extract_items (src offset).1 = []) :
    http_get_all_pages_go src limit maxRecords page offset acc = ⟨acc, true, 1⟩ := by
  unfold http_get_all_pages_go
  simp [h2, h]

theorem http_pages_go_noMore (src : Nat → Option (ApexResp α) × Bool) (limit : Nat)
    (maxRecords : Option Nat) (page offset : Nat) (acc : List α)
    (h2 : (src offset).2 = true) (h : extract_items (src offset).1 ≠ [])
    (hm : hasMoreOf (src offset).1 = false) :
    http_get_all_pages_go src limit maxRecords page offset acc =
      ⟨acc ++ extract_items (src offset).1, true, 1⟩ := by
  unfold http_get_all_pages_go
  simp [h2, hm, List.isEmpty_eq_false.mpr h]

theorem http_pages_go_continue (src : Nat → Option (ApexResp α) × Bool) (limit : Nat)
    (maxRecords : Option Nat) (page offset : Nat) (acc : List α)
    (h2 : (src offset).2 = true) (h : extract_items (src offset).1 ≠ [])
    (hm : hasMoreOf (src offset).1 = true)
    (hmx : maxRecordsHit maxRecords (acc ++ extract_items (src offset).1).length = false)
    (hc : ¬(page + 1 > 10000)) :
    http_get_all_pages_go src limit maxRecords page offset acc =
      ⟨(http_get_all_pages_go src limit maxRecords (page + 1) (offset + limit)
          (acc ++ extract_items (src offset).1)).records,
        (http_get_all_pages_go src limit maxRecords (page + 1) (offset + limit)
          (acc ++ extract_items (src offset).1)).ok,
        (http_get_all_pages_go src limit maxRecords (page + 1) (offset + limit)
          (acc ++ extract_items (src offset).1)).requests + 1⟩ := by
  have hmx2 : maxRecordsHit maxRecords
      (acc.length + (extract_items (src offset).1).length) = false := by
    rw [← List.length_append]
    exact hmx
  conv_lhs => unfold http_get_all_pages_go
  simp [h2, hm, hmx, hmx2, List.isEmpty_eq_false.mpr h, hc]


theorem http_pages_go_maxrec (src : Nat → Option (ApexResp α) × Bool) (limit : Nat)
    (maxRecords : Option Nat) (page offset : Nat) (acc : List α)
    (h2 : (src offset).2 = true) (h : extract_items (src offset).1 ≠ [])
    (hm : hasMoreOf (src offset).1 = true)
    (hmx : maxRecordsHit maxRecords (acc ++ extract_items (src offset).1).length = true) :
    http_get_all_pages_go src limit maxRecords page offset acc =
      ⟨acc ++ extract_items (src offset).1, true, 1⟩ := by
  have hmx2 : maxRecordsHit maxRecords
      (acc.length + (extract_items (src offset).1).length) = true := by
    rw [← List.length_append]
    exact hmx
  unfold http_get_all_pages_go
  simp [h2, hm, hmx, hmx2, List.isEmpty_eq_false.mpr h]

theorem http_pages_go_ceiling (src : Nat → Option (ApexResp α) × Bool) (limit : Nat)
    (maxRecords : Option Nat) (page offset : Nat) (acc : List α)
    (h2 : (src offset).2 = true) (h : extract_items (src offset).1 ≠ [])
    (hm : hasMoreOf (src offset).1 = true)
    (hmx : maxRecordsHit maxRecords (acc ++ extract_items (src offset).1).length = false)
    (hc : page + 1 > 10000) :
    http_get_all_pages_go src limit maxRecords page offset acc =
      ⟨acc ++ extract_items (src offset).1, true, 1⟩ := by
  have hmx2 : maxRecordsHit maxRecords
      (acc.length + (extract_items (src offset).1).length) = false := by
    rw [← List.length_append]
    exact hmx
  unfold http_get_all_pages_go
  simp [h2, hm, hmx, hmx2, List.isEmpty_eq_false.mpr h, hc]

theorem fetch_direct_go_fail (src : Nat → Option (ApexResp α) × Bool) (pageSize : Nat)
    (page offset : Nat) (acc : List α)
    (h : (src offset).2 = false ∨ (src offset).1 = none) :
    fetch_all_direct_go src pageSize page offset acc = ⟨[], false, 1⟩ := by
  unfold fetch_all_direct_go
  rcases h with h | h <;> simp [h, Option.isNone_iff_eq_none]

theorem fetch_direct_go_empty (src : Nat → Option (ApexResp α) × Bool) (pageSize : Nat)
    (page offset : Nat) (acc : List α)
    (h2 : (src offset).2 = true) (hnn : (src offset).1 ≠ none)
    (h : extract_items (src offset).1 = []) :
    fetch_all_direct_go src pageSize page offset acc = ⟨acc, true, 1⟩ := by
  unfold fetch_all_direct_go
  simp [h2, h, Option.isNone_iff_eq_none, hnn]

theorem fetch_direct_go_noMore (src : Nat → Option (ApexResp α) × Bool) (pageSize : Nat)
    (page offset : Nat) (acc : List α)
    (h2 : (src offset).2 = true) (hnn : (src offset).1 ≠ none)
    (h : extract_items (src offset).1 ≠ [])
    (hm : directHasMore pageSize (src offset).1 = false) :
    fetch_all_direct_go src pageSize page offset acc =
      ⟨acc ++ extract_items (src offset).1, true, 1⟩ := by
  unfold fetch_all_direct_go
  simp [h2, hm, Option.isNone_iff_eq_none, hnn, List.isEmpty_eq_false.mpr h]

theorem fetch_direct_go_ceiling (src : Nat → Option (ApexResp α) × Bool) (pageSize : Nat)
    (page offset : Nat) (acc : List α)
    (h2 : (src offset).2 = true) (hnn : (src offset).1 ≠ none)
    (h : extract_items (src offset).1 ≠ [])
    (hm : directHasMore pageSize (src offset).1 = true)
    (hc : page + 1 ≥ 200000) :
    fetch_all_direct_go src pageSize page offset acc =
      ⟨acc ++ extract_items (src offset).1, true, 1⟩ := by
  unfold fetch_all_direct_go
  simp [h2, hm, Option.isNone_iff_eq_none, hnn, List.isEmpty_eq_false.mpr h, hc]

theorem fetch_direct_go_continue (src : Nat → Option (ApexResp α) × Bool) (pageSize : Nat)
    (page offset : Nat) (acc : List α)
    (h2 : (src offset).2 = true) (hnn : (src offset).1 ≠ none)
    (h : extract_items (src offset).1 ≠ [])
    (hm : directHasMore pageSize (src offset).1 = true)
    (hc : ¬(page + 1 ≥ 200000)) :
    fetch_all_direct_go src pageSize page offset acc =
      ⟨(fetch_all_direct_go src pageSize (page + 1) (offset + pageSize)
          (acc ++ extract_items (src offset).1)).records,
        (fetch_all_direct_go src pageSize (page + 1) (offset + pageSize)
          (acc ++ extract_items (src offset).1)).ok,
        (fetch_all_direct_go src pageSize (page + 1) (offset + pageSize)
          (acc ++ extract_items (src offset).1)).requests + 1⟩ := by
  conv_lhs => unfold fetch_all_direct_go
  simp [h2, hm, Option.isNone_iff_eq_none, hnn, List.isEmpty_eq_false.mpr h, hc]


theorem ceilDiv_rec (k P : Nat) (hP : 1 ≤ P) (hk : P < k) :
    (k + P - 1) / P = (k - P + P - 1) / P + 1 := by
  have h1 : k + P - 1 = (k - P + P - 1) + P := by omega
  rw [h1, Nat.add_div_right _ (by omega)]

theorem ceilDiv_one (k P : Nat) (h1 : 1 ≤ k) (h2 : k ≤ P) :
    (k + P - 1) / P = 1 := by
  exact Nat.div_eq_of_lt_le (by omega) (by omega)

theorem http_pages_go_slice (recs : List α) (P : Nat) (hP : 1 ≤ P) :
    ∀ (k page offset : Nat) (acc : List α),
      offset < recs.length →
      recs.length - offset = k →
      page + (k + P - 1) / P ≤ 10001 →
      http_get_all_pages_go (sliceSrc recs P) P none page offset acc =
        ⟨acc ++ recs.drop offset, true, (k + P - 1) / P⟩ := by
  intro k
  induction k using Nat.strong_induction_on with
  | _ k ih =>
    intro page offset acc hofs hk hbound
    have hdropne : recs.drop offset ≠ [] := by
      intro hh
      have hlen := List.length_drop offset recs
      rw [hh] at hlen
      simp at hlen
      omega
    have hitems : extract_items ((sliceSrc recs P) offset).1
        = (recs.drop offset).take P := rfl
    have hne : extract_items ((sliceSrc recs P) offset).1 ≠ [] := by
      rw [hitems]
      intro hh
      rcases List.take_eq_nil_iff.mp hh with h0 | h0
      · omega
      · exact hdropne h0
    by_cases hm : offset + P < recs.length
    · have hmt : hasMoreOf ((sliceSrc recs P) offset).1 = true := by
        simp [sliceSrc, hasMoreOf, hm]
      have hk2 : P < k := by omega
      have hrec : (k + P - 1) / P = (k - P + P - 1) / P + 1 := ceilDiv_rec k P hP hk2
      have hge1 : 1 ≤ (k - P + P - 1) / P := by
        rcases le_or_lt (k - P) P with hle | hlt
        · rw [ceilDiv_one (k - P) P (by omega) hle]
        · rw [ceilDiv_rec (k - P) P hP hlt]
          exact Nat.le_add_left 1 _
      have hc : ¬(page + 1 > 10000) := by omega
      rw [http_pages_go_continue (sliceSrc recs P) P none page offset acc rfl hne hmt
        (by rfl) hc]
      rw [hitems]
      rw [ih (k - P) (by omega) (page + 1) (offset + P) (acc ++ (recs.drop offset).take P)
        (by omega) (by omega) (by omega)]
      simp only [PagesResult.mk.injEq]
      refine ⟨?_, trivial, by omega⟩
      rw [List.append_assoc]
      congr 1
      rw [← List.drop_drop, List.take_append_drop]
    · have hmf : hasMoreOf ((sliceSrc recs P) offset).1 = false := by
        simp [sliceSrc, hasMoreOf, hm]
      rw [http_pages_go_noMore (sliceSrc recs P) P none page offset acc rfl hne hmf]
      rw [hitems]
      have htake : (recs.drop offset).take P = recs.drop offset := by
        apply List.take_of_length_le
        rw [List.length_drop]
        omega
      rw [htake, ceilDiv_one k P (by omega) (by omega)]

/-- `http_get_all_pages` against a well-behaved source holding `recs`
(`N ≥ 1` records, accurate `hasMore`): exactly `⌈N / P⌉` page requests,
all records returned in order, success. -/
theorem http_get_all_pages_complete (recs : List α) (P : Nat) (hP : 1 ≤ P)
    (hN : 1 ≤ recs.length) (hbound : 1 + (recs.length + P - 1) / P ≤ 10001) :
    http_get_all_pages (sliceSrc recs P) P none =
      ⟨recs, true, (recs.length + P - 1) / P⟩ := by
  unfold http_get_all_pages
  rw [http_pages_go_slice recs P hP recs.length 1 0 [] (by omega) (by omega) hbound]
  simp

theorem fetch_all_go_slice (recs : List α) (P : Nat) (hP : 1 ≤ P) :
    ∀ (k offset : Nat) (acc : List α) (fuel : Nat),
      recs.length - offset = k →
      (k + P - 1) / P + 1 ≤ fuel →
      fetch_all_go (sliceSrcB recs P) P fuel offset acc =
        ⟨acc ++ recs.drop offset, (k + P - 1) / P + 1, true⟩ := by
  intro k
  induction k using Nat.strong_induction_on with
  | _ k ih =>
    intro offset acc fuel hk hfuel
    cases fuel with
    | zero => exact absurd hfuel (Nat.not_succ_le_zero _)
    | succ fuel =>
      by_cases hofs : recs.length ≤ offset
      · have hk0 : k = 0 := by omega
        have hdrop : recs.drop offset = [] := List.drop_eq_nil_of_le hofs
        have hdiv : (k + P - 1) / P = 0 := by
          subst hk0
          exact Nat.div_eq_of_lt (by omega)
        unfold fetch_all_go
        simp [sliceSrcB, hdrop, hdiv]
      · push_neg at hofs
        have hdropne : recs.drop offset ≠ [] := by
          intro hh
          have hlen := List.length_drop offset recs
          rw [hh] at hlen
          simp at hlen
          omega
        have htne : ((recs.drop offset).take P).isEmpty = false := by
          rw [List.isEmpty_eq_false]
          intro hh
          rcases List.take_eq_nil_iff.mp hh with h0 | h0
          · omega
          · exact hdropne h0
        have hdivs : (k + P - 1) / P = (k - P + P - 1) / P + 1 := by
          rcases le_or_lt k P with hle | hlt
          · have h1 : k - P = 0 := by omega
            rw [ceilDiv_one k P (by omega) hle, h1]
            have h2 : (0 + P - 1) / P = 0 := Nat.div_eq_of_lt (by omega)
            omega
          · exact ceilDiv_rec k P hP hlt
        unfold fetch_all_go
        simp only [sliceSrcB, htne, Bool.true_eq_false, if_false, Bool.false_eq_true,
          ite_false]
        rw [ih (k - P) (by omega) (offset + P) (acc ++ (recs.drop offset).take P) fuel
          (by omega) (by omega)]
        simp only [FetchAllResult.mk.injEq]
        refine ⟨?_, by omega, trivial⟩
        rw [List.append_assoc]
        congr 1
        rw [← List.drop_drop, List.take_append_drop]

/-- `OracleApexClient.fetch_all` against the same well-behaved source:
`⌈N / P⌉ + 1` requests — the loop always probes one final empty page — and
all records returned in order. -/
theorem fetch_all_complete (recs : List α) (P : Nat) (hP : 1 ≤ P) (fuel : Nat)
    (hfuel : (recs.length + P - 1) / P + 1 ≤ fuel) :
    fetch_all (sliceSrcB recs P) P fuel =
      ⟨recs, (recs.length + P - 1) / P + 1, true⟩ := by
  unfold fetch_all
  rw [fetch_all_go_slice recs P hP recs.length 0 [] fuel (by omega) hfuel]
  simp


/-- A misbehaving source that always answers a full object page with
`hasMore = true` — it never reports an end of data. -/
def alwaysMoreSrc (g : Nat → List α) (o : Nat) : Option (ApexResp α) × Bool :=
  (some (.obj (g o) true), true)

/-- Concatenation of `n` consecutive pages of `g`, starting at `offset` and
stepping by `limit`. -/
def concatPages (g : Nat → List α) (offset limit : Nat) : Nat → List α
  | 0 => []
  | n + 1 => g offset ++ concatPages g (offset + limit) limit n

theorem http_pages_go_requests_le (src : Nat → Option (ApexResp α) × Bool)
    (limit : Nat) (maxRecords : Option Nat) :
    ∀ (n page offset : Nat) (acc : List α), 10001 - page = n → 1 ≤ n →
      (http_get_all_pages_go src limit maxRecords page offset acc).requests ≤ n := by
  intro n
  induction n using Nat.strong_induction_on with
  | _ n ih =>
    intro page offset acc hn h1
    by_cases hfail : (src offset).2 = false
    · rw [http_pages_go_fail _ _ _ _ _ _ hfail]
      dsimp only
      omega
    · have h2 : (src offset).2 = true := by
        revert hfail
        cases (src offset).2 <;> simp
      by_cases hempty : extract_items (src offset).1 = []
      · rw [http_pages_go_empty _ _ _ _ _ _ h2 hempty]
        dsimp only
        omega
      · by_cases hm : hasMoreOf (src offset).1 = false
        · rw [http_pages_go_noMore _ _ _ _ _ _ h2 hempty hm]
          dsimp only
          omega
        · have hmt : hasMoreOf (src offset).1 = true := by
            revert hm
            cases hasMoreOf (src offset).1 <;> simp
          by_cases hmx : maxRecordsHit maxRecords
              (acc ++ extract_items (src offset).1).length = true
          · rw [http_pages_go_maxrec _ _ _ _ _ _ h2 hempty hmt hmx]
            dsimp only
            omega
          · have hmxf : maxRecordsHit maxRecords
                (acc ++ extract_items (src offset).1).length = false := by
              revert hmx
              cases maxRecordsHit maxRecords (acc ++ extract_items (src offset).1).length
                <;> simp
            by_cases hc : page + 1 > 10000
            · rw [http_pages_go_ceiling _ _ _ _ _ _ h2 hempty hmt hmxf hc]
              dsimp only
              omega
            · rw [http_pages_go_continue _ _ _ _ _ _ h2 hempty hmt hmxf hc]
              have hrec := ih (n - 1) (by omega) (page + 1) (offset + limit)
                (acc ++ extract_items (src offset).1) (by omega) (by omega)
              dsimp only
              omega

theorem http_pages_go_ceiling_run (g : Nat → List α) (hg : ∀ o, g o ≠ [])
    (limit : Nat) :
    ∀ (n page offset : Nat) (acc : List α), page + n = 10000 →
      http_get_all_pages_go (alwaysMoreSrc g) limit none page offset acc =
        ⟨acc ++ concatPages g offset limit (n + 1), true, n + 1⟩ := by
  intro n
  induction n with
  | zero =>
    intro page offset acc hp
    rw [http_pages_go_ceiling (alwaysMoreSrc g) limit none page offset acc rfl
      (hg offset) rfl rfl (by omega)]
    simp [concatPages, extract_items, alwaysMoreSrc]
  | succ n ih =>
    intro page offset acc hp
    rw [http_pages_go_continue (alwaysMoreSrc g) limit none page offset acc rfl
      (hg offset) rfl rfl (by omega)]
    have hext : extract_items (alwaysMoreSrc g offset).1 = g offset := rfl
    rw [hext]
    rw [ih (page + 1) (offset + limit) (acc ++ g offset) (by omega)]
    simp [concatPages, extract_items, alwaysMoreSrc, List.append_assoc]

theorem fetch_direct_go_requests_le (src : Nat → Option (ApexResp α) × Bool)
    (pageSize : Nat) :
    ∀ (n page offset : Nat) (acc : List α), 200000 - page = n → 1 ≤ n →
      (fetch_all_direct_go src pageSize page offset acc).requests ≤ n := by
  intro n
  induction n using Nat.strong_induction_on with
  | _ n ih =>
    intro page offset acc hn h1
    by_cases hfail : (src offset).2 = false ∨ (src offset).1 = none
    · rw [fetch_direct_go_fail _ _ _ _ _ hfail]
      dsimp only
      omega
    · push_neg at hfail
      have h2 : (src offset).2 = true := by
        have := hfail.1
        revert this
        cases (src offset).2 <;> simp
      have hnn : (src offset).1 ≠ none := hfail.2
      by_cases hempty : extract_items (src offset).1 = []
      · rw [fetch_direct_go_empty _ _ _ _ _ h2 hnn hempty]
        dsimp only
        omega
      · by_cases hm : directHasMore pageSize (src offset).1 = false
        · rw [fetch_direct_go_noMore _ _ _ _ _ h2 hnn hempty hm]
          dsimp only
          omega
        · have hmt : directHasMore pageSize (src offset).1 = true := by
            revert hm
            cases directHasMore pageSize (src offset).1 <;> simp
          by_cases hc : page + 1 ≥ 200000
          · rw [fetch_direct_go_ceiling _ _ _ _ _ h2 hnn hempty hmt hc]
            dsimp only
            omega
          · rw [fetch_direct_go_continue _ _ _ _ _ h2 hnn hempty hmt hc]
            have hrec := ih (n - 1) (by omega) (page + 1) (offset + pageSize)
              (acc ++ extract_items (src offset).1) (by omega) (by omega)
            dsimp only
            omega

theorem fetch_direct_go_ceiling_run (g : Nat → List α) (hg : ∀ o, g o ≠ [])
    (pageSize : Nat) :
    ∀ (n page offset : Nat) (acc : List α), page + n = 199999 →
      fetch_all_direct_go (alwaysMoreSrc g) pageSize page offset acc =
        ⟨acc ++ concatPages g offset pageSize (n + 1), true, n + 1⟩ := by
  intro n
  induction n with
  | zero =>
    intro page offset acc hp
    rw [fetch_direct_go_ceiling (alwaysMoreSrc g) pageSize page offset acc rfl
      (by simp [alwaysMoreSrc]) (hg offset) rfl (by omega)]
    simp [concatPages, extract_items, alwaysMoreSrc]
  | succ n ih =>
    intro page offset acc hp
    rw [fetch_direct_go_continue (alwaysMoreSrc g) pageSize page offset acc rfl
      (by simp [alwaysMoreSrc]) (hg offset) rfl (by omega)]
    have hext : extract_items (alwaysMoreSrc g offset).1 = g offset := rfl
    rw [hext]
    rw [ih (page + 1) (offset + pageSize) (acc ++ g offset) (by omega)]
    simp [concatPages, extract_items, alwaysMoreSrc, List.append_assoc]


/-- C3 (amended): against a well-behaved source of `N ≥ 1` records,
`http_get_all_pages` issues exactly `⌈N / P⌉` page requests and returns
the full record set in order; `OracleApexClient.fetch_all` returns the
same records in order but issues `⌈N / P⌉ + 1` requests — it has no
has-more check, so it always probes one final empty page. -/
theorem pagination_completeness (α : Type) (recs : List α) (P fuel : Nat)
    (hP : 1 ≤ P) (hN : 1 ≤ recs.length)
    (hbound : 1 + (recs.length + P - 1) / P ≤ 10001)
    (hfuel : (recs.length + P - 1) / P + 1 ≤ fuel) :
    http_get_all_pages (sliceSrc recs P) P none =
      ⟨recs, true, (recs.length + P - 1) / P⟩
    ∧ fetch_all (sliceSrcB recs P) P fuel =
      ⟨recs, (recs.length + P - 1) / P + 1, true⟩ :=
  ⟨http_get_all_pages_complete recs P hP hN hbound,
    fetch_all_complete recs P hP fuel hfuel⟩

/-- Witness for `pagination_completeness`: 3 records at page size 2 give
2 page requests in `http_get_all_pages` and 3 in `fetch_all`. -/
theorem pagination_completeness_witness :
    http_get_all_pages (sliceSrc [10, 20, 30] 2) 2 none = ⟨[10, 20, 30], true, 2⟩
    ∧ fetch_all (sliceSrcB [10, 20, 30] 2) 2 9 = ⟨[10, 20, 30], 3, true⟩ :=
  pagination_completeness Nat [10, 20, 30] 2 9 (by omega) (by decide)
    (by decide) (by decide)

/-- C3 counterexample: a source holding exactly `N = 1` record at page size
`P = 1`: `⌈N / P⌉ = 1`, but `OracleApexClient.fetch_all` issues 2 page
requests (the full page, then the empty probe that ends the loop). -/
theorem fetch_all_requests_counterexample :
    fetch_all (sliceSrcB [7] 1) 1 8 = ⟨[7], 2, true⟩ ∧ (2 : Nat) ≠ 1 := by
  exact ⟨by decide, by decide⟩


/-- C4 (amended): the stop conditions of the two pagination loops.  Both
stop on an empty extracted item list; `fetch_all_direct` additionally
follows the dict `hasMore` flag and, for bare arrays, the page-fullness
heuristic (`len(items) == page_size`), continuing on a full bare-array
page; `http_get_all_pages` reads `hasMore` with a `False` default that
makes EVERY bare-array response terminate the loop after that page,
full or not — it has no page-fullness heuristic. -/
theorem pagination_stop_conditions (α : Type)
    (src : Nat → Option (ApexResp α) × Bool) (limit pageSize : Nat)
    (maxRecords : Option Nat) (page offset : Nat) (acc : List α) (l : List α) :
    ((src offset).2 = true → extract_items (src offset).1 = [] →
      http_get_all_pages_go src limit maxRecords page offset acc = ⟨acc, true, 1⟩)
    ∧ ((src offset).2 = true → extract_items (src offset).1 ≠ [] →
        hasMoreOf (src offset).1 = false →
      http_get_all_pages_go src limit maxRecords page offset acc =
        ⟨acc ++ extract_items (src offset).1, true, 1⟩)
    ∧ hasMoreOf (some (ApexResp.arr l)) = false
    ∧ ((src offset).2 = true → extract_items (src offset).1 ≠ [] →
        hasMoreOf (src offset).1 = true →
        maxRecordsHit maxRecords (acc ++ extract_items (src offset).1).length = false →
        ¬(page + 1 > 10000) →
      http_get_all_pages_go src limit maxRecords page offset acc =
        ⟨(http_get_all_pages_go src limit maxRecords (page + 1) (offset + limit)
            (acc ++ extract_items (src offset).1)).records,
          (http_get_all_pages_go src limit maxRecords (page + 1) (offset + limit)
            (acc ++ extract_items (src offset).1)).ok,
          (http_get_all_pages_go src limit maxRecords (page + 1) (offset + limit)
            (acc ++ extract_items (src offset).1)).requests + 1⟩)
    ∧ (src offset = (some (ApexResp.arr l), true) → l ≠ [] → l.length ≠ pageSize →
      fetch_all_direct_go src pageSize page offset acc = ⟨acc ++ l, true, 1⟩)
    ∧ (src offset = (some (ApexResp.arr l), true) → l.length = pageSize →
        l ≠ [] → ¬(page + 1 ≥ 200000) →
      fetch_all_direct_go src pageSize page offset acc =
        ⟨(fetch_all_direct_go src pageSize (page + 1) (offset + pageSize)
            (acc ++ l)).records,
          (fetch_all_direct_go src pageSize (page + 1) (offset + pageSize)
            (acc ++ l)).ok,
          (fetch_all_direct_go src pageSize (page + 1) (offset + pageSize)
            (acc ++ l)).requests + 1⟩)
    ∧ ((src offset).2 = true → (src offset).1 ≠ none →
        extract_items (src offset).1 ≠ [] →
        directHasMore pageSize (src offset).1 = false →
      fetch_all_direct_go src pageSize page offset acc =
        ⟨acc ++ extract_items (src offset).1, true, 1⟩) := by
  refine ⟨fun h2 h => http_pages_go_empty src limit maxRecords page offset acc h2 h,
    fun h2 h hm => http_pages_go_noMore src limit maxRecords page offset acc h2 h hm,
    rfl,
    fun h2 h hm hmx hc =>
      http_pages_go_continue src limit maxRecords page offset acc h2 h hm hmx hc,
    ?_, ?_, fun h2 hnn h hm =>
      fetch_direct_go_noMore src pageSize page offset acc h2 hnn h hm⟩
  · intro hsrc hne hlen
    have h2 : (src offset).2 = true := by rw [hsrc]
    have hnn : (src offset).1 ≠ none := by rw [hsrc]; simp
    have hext : extract_items (src offset).1 = l := by
      rw [hsrc]
      rfl
    have hm : directHasMore pageSize (src offset).1 = false := by
      rw [hsrc]
      simp [directHasMore, hlen]
    rw [fetch_direct_go_noMore src pageSize page offset acc h2 hnn
      (by rw [hext]; exact hne) hm, hext]
  · intro hsrc hlen hne hc
    have h2 : (src offset).2 = true := by rw [hsrc]
    have hnn : (src offset).1 ≠ none := by rw [hsrc]; simp
    have hext : extract_items (src offset).1 = l := by
      rw [hsrc]
      rfl
    have hm : directHasMore pageSize (src offset).1 = true := by
      rw [hsrc]
      simp [directHasMore, hlen]
    have := fetch_direct_go_continue src pageSize page offset acc h2 hnn
      (by rw [hext]; exact hne) hm hc
    rw [hext] at this
    exact this

/-- Witness for `pagination_stop_conditions`: the empty-page stop applied
to a concrete always-empty dict source. -/
theorem pagination_stop_conditions_witness :
    http_get_all_pages_go
        (fun _ => ((some (ApexResp.obj ([] : List Nat) false), true))) 5 none 1 0 []
      = ⟨[], true, 1⟩ :=
  (pagination_stop_conditions Nat
    (fun _ => ((some (ApexResp.obj ([] : List Nat) false), true))) 5 5 none 1 0 [] []).1
    rfl rfl

/-- C4 counterexample: a source answering a FULL bare-array page (length
equal to the page size).  The claim's page-fullness heuristic says the
loop advances the offset and fetches the next page, but `http_get_all_pages`
defaults `hasMore` to `False` for non-dict responses and stops after a
single request. -/
theorem http_pages_bare_array_counterexample :
    http_get_all_pages (fun _ => ((some (ApexResp.arr [7]), true))) 1 none
      = ⟨[7], true, 1⟩
    ∧ ([7] : List Nat).length = 1 := by
  refine ⟨?_, rfl⟩
  unfold http_get_all_pages
  rw [http_pages_go_noMore (fun _ => ((some (ApexResp.arr [7]), true))) 1 none 1 0 []
    rfl (by simp [extract_items]) rfl]
  simp [extract_items]

/-- C9: both cited pagination loops always terminate within their safety
ceiling — no source can make `http_get_all_pages` issue more than 10000
page requests nor `fetch_all_direct` more than 200000 — and against a
misbehaving source that always reports more data each loop stops exactly
at the ceiling, returning everything accumulated so far with
`success = true`. -/
theorem pagination_safety_ceiling (α : Type)
    (src : Nat → Option (ApexResp α) × Bool) (g : Nat → List α)
    (limit pageSize : Nat) (maxRecords : Option Nat) :
    (http_get_all_pages src limit maxRecords).requests ≤ 10000
    ∧ (fetch_all_direct src pageSize).requests ≤ 200000
    ∧ ((∀ o, g o ≠ []) →
        http_get_all_pages (alwaysMoreSrc g) limit none =
          ⟨concatPages g 0 limit 10000, true, 10000⟩)
    ∧ ((∀ o, g o ≠ []) →
        fetch_all_direct (alwaysMoreSrc g) pageSize =
          ⟨concatPages g 0 pageSize 200000, true, 200000⟩) := by
  refine ⟨?_, ?_, ?_, ?_⟩
  · exact http_pages_go_requests_le src limit maxRecords 10000 1 0 [] (by omega)
      (by omega)
  · exact fetch_direct_go_requests_le src pageSize 200000 0 0 [] (by omega) (by omega)
  · intro hg
    unfold http_get_all_pages
    rw [http_pages_go_ceiling_run g hg limit 9999 1 0 [] (by omega)]
    have h1 : (9999 : Nat) + 1 = 10000 := rfl
    rw [List.nil_append, h1]
  · intro hg
    unfold fetch_all_direct
    rw [fetch_direct_go_ceiling_run g hg pageSize 199999 0 0 [] (by omega)]
    have h1 : (199999 : Nat) + 1 = 200000 := rfl
    rw [List.nil_append, h1]

/-- Witness for `pagination_safety_ceiling`: the ceiling-run clause applied
to the concrete one-record-per-page misbehaving source. -/
theorem pagination_safety_ceiling_witness :
    http_get_all_pages (alwaysMoreSrc (fun _ => [0])) 1 none =
      ⟨concatPages (fun _ => [0]) 0 1 10000, true, 10000⟩ :=
  (pagination_safety_ceiling Nat (fun _ => (none, false)) (fun _ => [0]) 1 1
    none).2.2.1 (fun o => by simp)


/-! ## Batched upsert sink

Two sinks exist in the repository.  `batch_upsert`
(`utils/supabase_client.py`) slices the input into `batch_size` sub-batches
and issues one upsert per sub-batch; its `except` clause prints and
RE-RAISES, so the first failing sub-batch aborts the whole call.
`SupabaseClient.batch_upsert` (`src/clients/supabase_client.py`) catches
the per-sub-batch exception and `continue`s, counting only accepted
sub-batches (its `response.data` echoes the submitted rows, so each
accepted sub-batch adds its own length).  Neither sink retries a
sub-batch.  `ok i` is the destination's verdict on sub-batch `i`. -/

/-- `range(0, len(records), batch_size)` slicing into sub-batches.
With `batch_size = 0` Python's `range` raises; the model returns `[]`
(the repository always passes 100 or 1000). -/
def toBatches (batchSize : Nat) (l : List α) : List (List α) :=
  if _h : l.isEmpty ∨ batchSize = 0 then []
  else l.take batchSize :: toBatches batchSize (l.drop batchSize)
termination_by l.length
decreasing_by
  rw [List.length_drop]
  push_neg at _h
  have h1 : l ≠ [] := by
    intro hh
    exact _h.1 (by simp [hh])
  have h2 : l.length ≠ 0 := fun hh => h1 (List.eq_nil_of_length_eq_zero hh)
  omega

/-- The sub-batch loop of `utils` `batch_upsert`: first component is the
returned count (`Except.error` = the re-raised exception), second is how
many upsert requests were issued before returning. -/
def utils_batch_upsert_go (ok : Nat → Bool) :
    List (List α) → Nat → Nat → Except Unit Nat × Nat
  | [], _, total => (Except.ok total, 0)
  | b :: rest, i, total =>
      if ok i then
        let r := utils_batch_upsert_go ok rest (i + 1) (total + b.length)
        (r.1, r.2 + 1)
      else (Except.error (), 1)

/-- `batch_upsert` from `utils/supabase_client.py`. -/
def utils_batch_upsert (records : List α) (batchSize : Nat) (ok : Nat → Bool) :
    Except Unit Nat × Nat :=
  utils_batch_upsert_go ok (toBatches batchSize records) 0 0

/-- The sub-batch loop of `SupabaseClient.batch_upsert`.  Every sub-batch
is attempted with exactly one upsert request; an accepted sub-batch adds
its own length to `total_inserted` (`response.data` echoes the submitted
rows), a failed one is caught by the per-sub-batch `except`, contributes
nothing, and the loop `continue`s with the remaining sub-batches; never
raises.  First component: the returned count; second component: the
number of upsert requests issued. -/
def client_batch_upsert_go (ok : Nat → Bool) : List (List α) → Nat → Nat × Nat
  | [], _ => (0, 0)
  | b :: rest, i =>
      let r := client_batch_upsert_go ok rest (i + 1)
      ((if ok i then b.length else 0) + r.1, r.2 + 1)

/-- `SupabaseClient.batch_upsert` from `src/clients/supabase_client.py`. -/
def client_batch_upsert (records : List α) (batchSize : Nat) (ok : Nat → Bool) :
    Nat × Nat :=
  client_batch_upsert_go ok (toBatches batchSize records) 0

theorem toBatches_sum_length (batchSize : Nat) (hb : 1 ≤ batchSize) :
    ∀ (n : Nat) (l : List α), l.length ≤ n →
      ((toBatches batchSize l).map (fun b => b.length)).sum = l.length := by
  intro n
  induction n with
  | zero =>
    intro l hl
    have h0 : l = [] := List.eq_nil_of_length_eq_zero (Nat.le_zero.mp hl)
    subst h0
    simp [toBatches]
  | succ n ih =>
    intro l hl
    by_cases h0 : l = []
    · subst h0
      simp [toBatches]
    · have hcond : ¬(l.isEmpty = true ∨ batchSize = 0) := by
        push_neg
        refine ⟨?_, by omega⟩
        simp [List.isEmpty_eq_false.mpr h0]
      rw [toBatches, dif_neg hcond]
      have hlen : 1 ≤ l.length := by
        cases l
        · exact absurd rfl h0
        · simp
      have hrec := ih (l.drop batchSize) (by rw [List.length_drop]; omega)
      simp only [List.map_cons, List.sum_cons, hrec, List.length_take,
        List.length_drop]
      omega

theorem utils_go_ok_le (ok : Nat → Bool) :
    ∀ (bs : List (List α)) (i total n : Nat),
      (utils_batch_upsert_go ok bs i total).1 = Except.ok n →
      n ≤ total + (bs.map (fun b => b.length)).sum := by
  intro bs
  induction bs with
  | nil =>
    intro i total n h
    simp only [utils_batch_upsert_go, Except.ok.injEq] at h
    simp [← h]
  | cons b rest ih =>
    intro i total n h
    by_cases hok : ok i = true
    · simp only [utils_batch_upsert_go, hok, if_true] at h
      have := ih (i + 1) (total + b.length) n h
      simp only [List.map_cons, List.sum_cons]
      omega
    · simp only [utils_batch_upsert_go, hok] at h
      cases h

theorem utils_go_all_ok (ok : Nat → Bool) :
    ∀ (bs : List (List α)) (i total : Nat), (∀ j, ok j = true) →
      (utils_batch_upsert_go ok bs i total).1 =
        Except.ok (total + (bs.map (fun b => b.length)).sum) := by
  intro bs
  induction bs with
  | nil =>
    intro i total hok
    simp [utils_batch_upsert_go]
  | cons b rest ih =>
    intro i total hok
    simp only [utils_batch_upsert_go, hok i, if_true]
    rw [ih (i + 1) (total + b.length) hok]
    simp only [List.map_cons, List.sum_cons, Except.ok.injEq]
    omega

theorem utils_go_first_fail (ok : Nat → Bool) :
    ∀ (bs : List (List α)) (i j : Nat) (total : Nat), ok (i + j) = false →
      (∀ i2, i2 < i + j → i ≤ i2 → ok i2 = true) →
      j < bs.length →
      utils_batch_upsert_go ok bs i total = (Except.error (), j + 1) := by
  intro bs
  induction bs with
  | nil =>
    intro i j total hj hbefore hlen
    simp at hlen
  | cons b rest ih =>
    intro i j total hj hbefore hlen
    cases j with
    | zero =>
      simp only [Nat.add_zero] at hj
      simp [utils_batch_upsert_go, hj]
    | succ j =>
      have hok : ok i = true := hbefore i (by omega) (le_refl i)
      simp only [utils_batch_upsert_go, hok, if_true]
      have he : i + 1 + j = i + (j + 1) := by omega
      rw [ih (i + 1) j (total + b.length) (by rw [he]; exact hj)
        (fun i2 h1 h2 => hbefore i2 (by omega) (by omega))
        (by simpa using hlen)]

theorem client_go_spec (ok : Nat → Bool) :
    ∀ (bs : List (List α)) (i : Nat),
      client_batch_upsert_go ok bs i =
        (((List.enumFrom i bs).map
            (fun p => if ok p.1 then p.2.length else 0)).sum, bs.length) := by
  intro bs
  induction bs with
  | nil => intro i; simp [client_batch_upsert_go]
  | cons b rest ih =>
    intro i
    simp only [client_batch_upsert_go, ih (i + 1), List.enumFrom_cons,
      List.map_cons, List.sum_cons, List.length_cons]

theorem enumFrom_if_sum_le (ok : Nat → Bool) :
    ∀ (bs : List (List α)) (i : Nat),
      ((List.enumFrom i bs).map (fun p => if ok p.1 then p.2.length else 0)).sum ≤
        (bs.map (fun b => b.length)).sum := by
  intro bs
  induction bs with
  | nil => intro i; simp
  | cons b rest ih =>
    intro i
    simp only [List.enumFrom_cons, List.map_cons, List.sum_cons]
    have := ih (i + 1)
    by_cases hok : ok i = true <;> simp [hok] <;> omega

theorem enumFrom_if_sum_all_ok (ok : Nat → Bool) :
    ∀ (bs : List (List α)) (i : Nat), (∀ j, ok j = true) →
      ((List.enumFrom i bs).map (fun p => if ok p.1 then p.2.length else 0)).sum =
        (bs.map (fun b => b.length)).sum := by
  intro bs
  induction bs with
  | nil => intro i _; simp
  | cons b rest ih =>
    intro i hok
    simp only [List.enumFrom_cons, List.map_cons, List.sum_cons, hok i, if_true,
      ih (i + 1) hok]


/-- C5 (amended): neither upsert sink retries a failed sub-batch.
`SupabaseClient.batch_upsert` skips a failed sub-batch after its single
attempt: its returned count is exactly the summed size of the ACCEPTED
sub-batches (the failed sub-batch's records are excluded), while every
sub-batch — including those after a failure — is attempted with exactly
one upsert request (the request count equals the number of sub-batches,
whatever fails), and nothing propagates out of the sink (the function is
total).  `utils.batch_upsert` re-raises on the FIRST failing sub-batch
after its single attempt, so the remaining sub-batches are never
attempted. -/
theorem upsert_sink_spec (α : Type) (records : List α) (batchSize : Nat)
    (ok : Nat → Bool) (hb : 1 ≤ batchSize) :
    (∀ n, (utils_batch_upsert records batchSize ok).1 = Except.ok n →
        n ≤ records.length)
    ∧ ((∀ j, ok j = true) →
        (utils_batch_upsert records batchSize ok).1 = Except.ok records.length)
    ∧ (∀ j, ok j = false → (∀ i, i < j → ok i = true) →
        j < (toBatches batchSize records).length →
        utils_batch_upsert records batchSize ok = (Except.error (), j + 1))
    ∧ client_batch_upsert records batchSize ok =
        (((List.enumFrom 0 (toBatches batchSize records)).map
            (fun p => if ok p.1 then p.2.length else 0)).sum,
          (toBatches batchSize records).length)
    ∧ (client_batch_upsert records batchSize ok).1 ≤ records.length
    ∧ ((∀ j, ok j = true) →
        (client_batch_upsert records batchSize ok).1 = records.length) := by
  have hsum : ((toBatches batchSize records).map (fun b => b.length)).sum
      = records.length :=
    toBatches_sum_length batchSize hb records.length records (le_refl _)
  refine ⟨?_, ?_, ?_, ?_, ?_, ?_⟩
  · intro n h
    have := utils_go_ok_le ok (toBatches batchSize records) 0 0 n h
    rw [hsum] at this
    omega
  · intro hok
    unfold utils_batch_upsert
    rw [utils_go_all_ok ok (toBatches batchSize records) 0 0 hok, hsum]
    norm_num
  · intro j hj hbefore hlen
    unfold utils_batch_upsert
    exact utils_go_first_fail ok (toBatches batchSize records) 0 j 0
      (by simpa using hj) (fun i2 h1 _ => hbefore i2 (by omega)) hlen
  · exact client_go_spec ok (toBatches batchSize records) 0
  · unfold client_batch_upsert
    rw [client_go_spec ok (toBatches batchSize records) 0]
    have := enumFrom_if_sum_le ok (toBatches batchSize records) 0
    rw [hsum] at this
    exact this
  · intro hok
    unfold client_batch_upsert
    rw [client_go_spec ok (toBatches batchSize records) 0]
    simp only
    rw [enumFrom_if_sum_all_ok ok (toBatches batchSize records) 0 hok, hsum]

/-- Witness for `upsert_sink_spec`: the spec's own partial-failure scenario
— 10 records in sub-batches of 2, sub-batch 3 of 5 (index 2) failing
permanently, all others accepted.  The sink returns `4 * batchSize = 8`
(the failed sub-batch's 2 records excluded) after exactly 5 upsert
requests: sub-batches 4 and 5 were still attempted, and the failed one
was attempted only once. -/
theorem upsert_sink_spec_witness :
    client_batch_upsert [1, 2, 3, 4, 5, 6, 7, 8, 9, 10] 2 (fun i => i != 2)
      = (8, 5) := by
  have h := (upsert_sink_spec Nat [1, 2, 3, 4, 5, 6, 7, 8, 9, 10] 2
    (fun i => i != 2) (by omega)).2.2.2.1
  have hbatches : toBatches 2 [1, 2, 3, 4, 5, 6, 7, 8, 9, 10]
      = [[1, 2], [3, 4], [5, 6], [7, 8], [9, 10]] := by
    rw [toBatches]
    norm_num
    rw [toBatches]
    norm_num
    rw [toBatches]
    norm_num
    rw [toBatches]
    norm_num
    rw [toBatches]
    norm_num
    rw [toBatches]
    norm_num
  rw [h, hbatches]
  decide

/-- C5 counterexample: in `utils.batch_upsert`, a permanently failing first
sub-batch is attempted once (no retry), the exception escapes the sink,
and the second sub-batch is never attempted — the call ends after 1 upsert
request with the error, against the claim's retry-then-skip-and-continue
behaviour. -/
theorem utils_batch_upsert_raises :
    utils_batch_upsert [1, 2, 3, 4] 2 (fun i => i != 0) = (Except.error (), 1)
    ∧ toBatches 2 [1, 2, 3, 4] = [[1, 2], [3, 4]] := by
  have hb : toBatches 2 [1, 2, 3, 4] = [[1, 2], [3, 4]] := by
    rw [toBatches]
    norm_num
    rw [toBatches]
    norm_num
    rw [toBatches]
    norm_num
  refine ⟨?_, hb⟩
  unfold utils_batch_upsert
  rw [hb]
  rfl


/-! ## Watermark resolution (`get_max_date` and the controller's range step)

`get_max_date` (`utils/supabase_client.py`) queries the destination for
the date column ordered descending, limit 1; any exception is caught,
printed, and turned into `None`, the same value an empty table yields.
The controller (`v_log_cambios_etapa.controller.sync`, step 2) resolves
the range from the caller's arguments, the `full_sync` flag, and that
watermark.  The destination query is modelled as its outcome
(`Except.error` = the raised exception; `Except.ok rows` = per returned
row the value `row.get(date_column)`), and the clock reads are the
injected `todayStr` / `todayMinus`. -/

/-- `get_max_date` from `utils/supabase_client.py`. -/
def get_max_date (queryResult : Except String (List (Option String))) :
    Option String :=
  match queryResult with
  | .error _ => none
  | .ok rows =>
      match rows with
      | [] => none
      | v :: _ => v

/-- Python truthiness of an optional string (`if s:`). -/
def truthyStr (o : Option String) : Bool :=
  match o with
  | none => false
  | some s => s != ""

/-- `s.split(sep)[0]`: the prefix before the first occurrence of `sep`. -/
def pySplitHead (sep : Char) (s : String) : String :=
  ⟨s.data.takeWhile (fun c => c != sep)⟩

/-- `sep in s` for a single character. -/
def pyContains (s : String) (sep : Char) : Bool :=
  s.data.contains sep

/-- The controller's date-portion truncation of the watermark:
split on `'T'`, else on `' '`, else keep the whole string. -/
def datePortion (lm : String) : String :=
  if pyContains lm 'T' then pySplitHead 'T' lm
  else if pyContains lm ' ' then pySplitHead ' ' lm
  else lm

/-- Step 2 of `v_log_cambios_etapa.controller.sync`: determine
`(fecha_desde, fecha_hasta)`.  Caller-supplied `fecha_desde` wins;
else `full_sync` takes today minus `dias_historico`; else a truthy
watermark's date portion; else both dates are cleared (full historical
load).  Finally a missing `fecha_hasta` is filled with today whenever
`fecha_desde` is not `None`. -/
def vlog_resolve_range (fechaDesde fechaHasta : Option String)
    (diasHistorico : Nat) (fullSync : Bool) (lastModified : Option String)
    (todayStr : String) (todayMinus : Nat → String) :
    Option String × Option String :=
  let s1 : Option String × Option String :=
    if truthyStr fechaDesde then (fechaDesde, fechaHasta)
    else if fullSync then (some (todayMinus diasHistorico), fechaHasta)
    else
      match lastModified with
      | some lm => if lm = "" then (none, none) else (some (datePortion lm), fechaHasta)
      | none => (none, none)
  if s1.1 ≠ none ∧ truthyStr s1.2 = false then (s1.1, some todayStr) else s1

/-- C1 (amended): with no explicit range and no full-sync flag, a present
watermark value resolves to an incremental range from the value's date
portion (time-of-day truncated) to today; but an ABSENT watermark (empty
destination) clears both dates — a full unfiltered historical load — and
the `dias_historico` lookback window is applied only when `full_sync` is
set. -/
theorem watermark_resolution (lm : String)
    (diasHistorico : Nat) (todayStr : String) (todayMinus : Nat → String)
    (hlm : lm ≠ "") :
    vlog_resolve_range none none diasHistorico false
        (get_max_date (Except.ok [some lm])) todayStr todayMinus =
      (some (datePortion lm), some todayStr)
    ∧ datePortion "2026-01-10 08:00:00" = "2026-01-10"
    ∧ datePortion "2026-01-10T08:00:00" = "2026-01-10"
    ∧ vlog_resolve_range none none diasHistorico false
        (get_max_date (Except.ok [])) todayStr todayMinus = (none, none)
    ∧ vlog_resolve_range none none diasHistorico true none todayStr todayMinus =
      (some (todayMinus diasHistorico), some todayStr) := by
  refine ⟨?_, by decide, by decide, by rfl, ?_⟩
  · unfold vlog_resolve_range get_max_date truthyStr
    simp [hlm]
  · unfold vlog_resolve_range truthyStr
    simp

/-- Witness for `watermark_resolution`: a concrete watermark value. -/
theorem watermark_resolution_witness :
    vlog_resolve_range none none 30 false
        (get_max_date (Except.ok [some "2026-01-10 08:00:00"])) "2026-10-12"
        (fun _ => "2026-09-12") =
      (some (datePortion "2026-01-10 08:00:00"), some "2026-10-12") :=
  (watermark_resolution "2026-01-10 08:00:00" 30 "2026-10-12"
    (fun _ => "2026-09-12") (by decide)).1

/-- C1 counterexample: empty destination (`get_max_date` gives `None`),
`lookbackDays = 30`, no explicit range, no full-sync: the claim prescribes
`from = today − 30d` (here `"2026-09-12"`), but the controller clears both
dates and performs the full unfiltered historical load. -/
theorem empty_watermark_counterexample :
    vlog_resolve_range none none 30 false none "2026-10-12"
        (fun _ => "2026-09-12") = (none, none)
    ∧ (none : Option String) ≠ some "2026-09-12" := by
  exact ⟨by decide, by decide⟩

/-- C10: a failed destination read in `get_max_date` is caught and becomes
`None` — exactly the empty-table answer — so the controller resolves the
run as a first-time full historical load rather than an incremental one;
no exception reaches the orchestrator (the function is total). -/
theorem get_max_date_error_containment (e : String) (diasHistorico : Nat)
    (todayStr : String) (todayMinus : Nat → String) :
    get_max_date (Except.error e) = none
    ∧ get_max_date (Except.ok []) = none
    ∧ get_max_date (Except.error e) = get_max_date (Except.ok [])
    ∧ vlog_resolve_range none none diasHistorico false
        (get_max_date (Except.error e)) todayStr todayMinus = (none, none) := by
  exact ⟨rfl, rfl, rfl, by rfl⟩


/-! ## Orchestrator count pipeline

The buffered pipeline is shared, line for line, by
`clientes.controller.sync` (steps 2–4) and the incremental path of
`v_log_cambios_etapa.controller.sync` (steps 3–5): fetch, transform with
per-record skip, `deduplicate_by_id`, then `sync_to_supabase`, which is
`utils.batch_upsert` plus a logging re-raise; the controller's top-level
`except` catches that exception, leaving `records_synced` at 0 while
`records_fetched` was already set.  The streaming (full-load) path of
`v_log_cambios_etapa.controller.sync` runs the same
transform-dedupe-upsert per fetched page, accumulating the totals, and an
exception anywhere aborts before any result field is set. -/

/-- The count fields of a controller run's result dict. -/
structure SyncRunResult where
  success : Bool
  fetched : Nat
  synced : Nat
deriving Repr, DecidableEq

/-- `transform_all`: apply the per-record transform, skipping records whose
transform raises (`t r = none`). -/
def transform_all (t : α → Option β) : List α → List β
  | [] => []
  | r :: rest =>
      match t r with
      | some d => d :: transform_all t rest
      | none => transform_all t rest

/-- The shared buffered controller pipeline.  `lastWins` selects the
controller's deduplicator (`clientes` last-wins, `v_log` first-wins);
`ok` is the destination's verdict per upsert sub-batch. -/
def controller_sync_buffered (fetch : List α × Bool) (t : α → Option β)
    (idOf : β → Option String) (lastWins : Bool) (batchSize : Nat)
    (ok : Nat → Bool) : SyncRunResult :=
  if fetch.2 = false then ⟨false, 0, 0⟩
  else
    let records := fetch.1
    if records.isEmpty then ⟨true, records.length, 0⟩
    else
      let transformed := transform_all t records
      if transformed.isEmpty then ⟨false, records.length, 0⟩
      else
        let unique :=
          if lastWins then deduplicate_by_id_logvidrios idOf transformed
          else deduplicate_by_id_vlog idOf transformed
        match (utils_batch_upsert unique batchSize ok).1 with
        | .error _ => ⟨false, records.length, 0⟩
        | .ok n => ⟨true, records.length, n⟩

/-- The streaming (full-load) path of `v_log_cambios_etapa.controller.sync`:
`process_batch` per fetched page; `ok i` is the destination's verdict per
sub-batch of page `i`'s upsert. -/
def vlog_sync_streaming_go (t : α → Option β) (idOf : β → Option String)
    (batchSize : Nat) (ok : Nat → Nat → Bool) :
    List (List α) → Nat → Nat → Nat → SyncRunResult
  | [], _, tf, ts => ⟨true, tf, ts⟩
  | pg :: rest, i, tf, ts =>
      let transformed := transform_all t pg
      let unique := deduplicate_by_id_vlog idOf transformed
      match (utils_batch_upsert unique batchSize (ok i)).1 with
      | .error _ => ⟨false, 0, 0⟩
      | .ok n =>
          vlog_sync_streaming_go t idOf batchSize ok rest (i + 1)
            (tf + pg.length) (ts + n)

/-- The streaming run over the fetched pages. -/
def vlog_sync_streaming (t : α → Option β) (idOf : β → Option String)
    (batchSize : Nat) (ok : Nat → Nat → Bool) (pages : List (List α)) :
    SyncRunResult :=
  vlog_sync_streaming_go t idOf batchSize ok pages 0 0 0

theorem transform_all_length_le (t : α → Option β) :
    ∀ l : List α, (transform_all t l).length ≤ l.length := by
  intro l
  induction l with
  | nil => simp [transform_all]
  | cons r rest ih =>
    simp only [transform_all]
    cases t r with
    | none => simp only [List.length_cons]; omega
    | some d => simp only [List.length_cons]; omega

theorem dedupe_vlog_length_le (idOf : β → Option String) (records : List β) :
    (deduplicate_by_id_vlog idOf records).length ≤ records.length := by
  rw [length_dedupe_vlog]
  calc (truthyIds idOf records).dedup.length
      ≤ (truthyIds idOf records).length := (List.dedup_sublist _).length_le
    _ ≤ records.length := by
        unfold truthyIds
        exact List.length_filterMap_le _ _

theorem dedupe_logvidrios_length_le (idOf : β → Option String) (records : List β) :
    (deduplicate_by_id_logvidrios idOf records).length ≤ records.length := by
  rw [length_dedupe_logvidrios]
  calc (truthyIds idOf records).dedup.length
      ≤ (truthyIds idOf records).length := (List.dedup_sublist _).length_le
    _ ≤ records.length := by
        unfold truthyIds
        exact List.length_filterMap_le _ _

theorem utils_batch_upsert_ok_le (records : List β) (batchSize : Nat)
    (ok : Nat → Bool) (hb : 1 ≤ batchSize) (n : Nat)
    (h : (utils_batch_upsert records batchSize ok).1 = Except.ok n) :
    n ≤ records.length := by
  have hsum : ((toBatches batchSize records).map (fun b => b.length)).sum
      = records.length :=
    toBatches_sum_length batchSize hb records.length records (le_refl _)
  have := utils_go_ok_le ok (toBatches batchSize records) 0 0 n h
  rw [hsum] at this
  omega

theorem streaming_go_invariant (t : α → Option β) (idOf : β → Option String)
    (batchSize : Nat) (ok : Nat → Nat → Bool) (hb : 1 ≤ batchSize) :
    ∀ (pages : List (List α)) (i tf ts : Nat), ts ≤ tf →
      (vlog_sync_streaming_go t idOf batchSize ok pages i tf ts).synced ≤
        (vlog_sync_streaming_go t idOf batchSize ok pages i tf ts).fetched := by
  intro pages
  induction pages with
  | nil => intro i tf ts h; exact h
  | cons pg rest ih =>
    intro i tf ts h
    simp only [vlog_sync_streaming_go]
    cases hup : (utils_batch_upsert
        (deduplicate_by_id_vlog idOf (transform_all t pg)) batchSize (ok i)).1 with
    | error e => exact le_refl 0
    | ok n =>
      apply ih
      have h1 := utils_batch_upsert_ok_le _ batchSize (ok i) hb n hup
      have h2 := dedupe_vlog_length_le idOf (transform_all t pg)
      have h3 := transform_all_length_le t pg
      omega

/-- C8: in every modelled orchestrator run — the shared buffered pipeline
with either deduplicator, and the streaming full-load pipeline — the
reported counts satisfy `synced ≤ fetched`; on the buffered success path
the chain `synced ≤ deduplicated ≤ transformed ≤ fetched` holds link by
link. -/
theorem sync_counts_invariant (α β : Type) (fetch : List α × Bool)
    (t : α → Option β) (idOf : β → Option String) (lastWins : Bool)
    (batchSize : Nat) (ok : Nat → Bool) (ok2 : Nat → Nat → Bool)
    (pages : List (List α)) (hb : 1 ≤ batchSize) :
    ((controller_sync_buffered fetch t idOf lastWins batchSize ok).synced ≤
      (controller_sync_buffered fetch t idOf lastWins batchSize ok).fetched)
    ∧ (∀ n, (utils_batch_upsert
          (deduplicate_by_id_vlog idOf (transform_all t fetch.1)) batchSize ok).1
            = Except.ok n →
        n ≤ (deduplicate_by_id_vlog idOf (transform_all t fetch.1)).length)
    ∧ (deduplicate_by_id_vlog idOf (transform_all t fetch.1)).length ≤
        (transform_all t fetch.1).length
    ∧ (transform_all t fetch.1).length ≤ fetch.1.length
    ∧ ((vlog_sync_streaming t idOf batchSize ok2 pages).synced ≤
        (vlog_sync_streaming t idOf batchSize ok2 pages).fetched) := by
  refine ⟨?_, ?_, dedupe_vlog_length_le idOf _, transform_all_length_le t _,
    streaming_go_invariant t idOf batchSize ok2 hb pages 0 0 0 (le_refl 0)⟩
  · unfold controller_sync_buffered
    by_cases hfail : fetch.2 = false
    · simp [hfail]
    · simp only [hfail, if_false]
      by_cases hempty : fetch.1.isEmpty
      · simp [hempty]
      · simp only [hempty, Bool.false_eq_true, if_false]
        by_cases htempty : (transform_all t fetch.1).isEmpty
        · simp [htempty]
        · simp only [htempty, Bool.false_eq_true, if_false]
          cases hup : (utils_batch_upsert
              (if lastWins then deduplicate_by_id_logvidrios idOf (transform_all t fetch.1)
                else deduplicate_by_id_vlog idOf (transform_all t fetch.1))
              batchSize ok).1 with
          | error e => simp
          | ok n =>
            simp only
            have h1 := utils_batch_upsert_ok_le _ batchSize ok hb n hup
            have h3 := transform_all_length_le t fetch.1
            rcases lastWins with - | -
            · simp only [Bool.false_eq_true, if_false] at h1 hup ⊢
              have h2 := dedupe_vlog_length_le idOf (transform_all t fetch.1)
              simp only [Bool.true_eq_false, if_false]
              omega
            · simp only [if_true] at h1 hup ⊢
              have h2 := dedupe_logvidrios_length_le idOf (transform_all t fetch.1)
              simp only [Bool.true_eq_false, if_false]
              omega
  · intro n h
    exact utils_batch_upsert_ok_le _ batchSize ok hb n h

/-- Witness for `sync_counts_invariant`: a concrete two-record run. -/
theorem sync_counts_invariant_witness :
    (controller_sync_buffered ([1, 2], true) (fun a => some (TestRec.mk (some "k") a))
        TestRec.rid false 2 (fun _ => true)).synced ≤
      (controller_sync_buffered ([1, 2], true) (fun a => some (TestRec.mk (some "k") a))
        TestRec.rid false 2 (fun _ => true)).fetched :=
  (sync_counts_invariant Nat TestRec ([1, 2], true)
    (fun a => some (TestRec.mk (some "k") a)) TestRec.rid false 2 (fun _ => true)
    (fun _ _ => true) [] (by omega)).1

end SenvDbSync
